import Mathlib

/-!
# Verification of `ipldstore/contentstore.py`

A shallow embedding of the content-addressable store in
`src/ipldstore/contentstore.py`, together with theorems settling the
specification claims about it.

Modelling conventions:
* Python byte strings are `List Nat` (one entry per byte).
* Python `str` is `List Char` (`Key`), so slicing and formatted strings
  are ordinary list operations.
* A CID of the `multiformats` library is an opaque record
  `{version, base, codec, hash-function, digest}`; its canonical text
  encoding (used as the dictionary key of `MappingCAStore`) is injective
  on normalized CIDs, so the text key is modelled by the normalized CID
  itself.
* External primitives (the dag-cbor / cbor2 codec, the hash functions,
  Python's `hash` builtin) are parameters of the development; theorems
  state explicitly which contracts of those primitives they use.
* Stateful methods are explicit state-passing functions; fallible code
  returns an error result; unbounded recursion in the source
  (`make_tree_structure`, `recover_tree`, `_to_car`) is modelled with a
  fuel argument, where running out of fuel (`spin`) is distinguished from
  a genuine Python exception (`err`).
-/

/-- Python byte strings: a list of byte values. -/
abbrev Bytes := List Nat

/-- Python strings: a list of characters. -/
abbrev Key := List Char

/-- A CID of the `multiformats` library: version, multibase tag, content
codec tag, hash-function tag and digest.  Equality is field-wise. -/
structure CID where
  version : Nat
  base : Nat
  codec : Nat
  hashFn : Nat
  digest : Bytes
deriving DecidableEq, Repr

/-- multicodec code of "raw" (0x55), `RawCodec` in the source. -/
def rawCode : Nat := 85

/-- multicodec code of "dag-pb" (0x70), `DagPbCodec` in the source. -/
def dagPbCode : Nat := 112

/-- multicodec code of "dag-cbor" (0x71), `DagCborCodec` in the source. -/
def dagCborCode : Nat := 113

/-- multihash code of "sha2-256" (0x12), the default hash in the source. -/
def sha256Code : Nat := 18

/-- Decoded structured (dag-cbor) values: scalars, links (CID /
`CBORTag(42, ...)`), string-keyed maps and lists. -/
inductive Value where
  | int (n : Int)
  | str (s : Key)
  | link (c : CID)
  | map (kvs : List (Key × Value))
  | list (vs : List Value)

instance : Inhabited Value := ⟨.int 0⟩

/-! ## Link traversal (`iter_links`, contentstore.py lines 328-336) -/

mutual

/-- `iter_links(o)`: yields every identifier embedded in a decoded
structured value, in encounter order.  The generator of the source is
modelled as the list of the values it yields. -/
def iterLinks : Value → List CID
  | .link c => [c]
  | .map kvs => iterLinksKV kvs
  | .list vs => iterLinksL vs
  | .int _ => []
  | .str _ => []
termination_by structural v => v

/-- Traversal of the entries of a map: `for v in o.values(): yield from
iter_links(v)` (keys are strings and are never traversed). -/
def iterLinksKV : List (Key × Value) → List CID
  | [] => []
  | (_, v) :: r => iterLinks v ++ iterLinksKV r
termination_by structural kvs => kvs

/-- Traversal of the elements of a list, in sequence. -/
def iterLinksL : List Value → List CID
  | [] => []
  | v :: r => iterLinks v ++ iterLinksL r
termination_by structural vs => vs

end

/-- Specification-side notion of "an identifier embedded in a structured
value": it is the value itself, or embedded in some map value (never a
key, which is a string), or in some list element. -/
inductive LinksTo : Value → CID → Prop where
  | link (c : CID) : LinksTo (.link c) c
  | map {kvs : List (Key × Value)} {k : Key} {v : Value} {c : CID} :
      (k, v) ∈ kvs → LinksTo v c → LinksTo (.map kvs) c
  | list {vs : List Value} {v : Value} {c : CID} :
      v ∈ vs → LinksTo v c → LinksTo (.list vs) c

lemma mem_iterLinksKV {kvs : List (Key × Value)} {c : CID} :
    c ∈ iterLinksKV kvs ↔ ∃ p ∈ kvs, c ∈ iterLinks p.2 := by
  induction kvs with
  | nil => simp [iterLinksKV]
  | cons p r ih =>
    obtain ⟨k, v⟩ := p
    simp only [iterLinksKV, List.mem_append, ih, List.mem_cons]
    constructor
    · rintro (h | ⟨q, hq, hc⟩)
      · exact ⟨(k, v), Or.inl rfl, h⟩
      · exact ⟨q, Or.inr hq, hc⟩
    · rintro ⟨q, (rfl | hq), hc⟩
      · exact Or.inl hc
      · exact Or.inr ⟨q, hq, hc⟩

lemma mem_iterLinksL {vs : List Value} {c : CID} :
    c ∈ iterLinksL vs ↔ ∃ v ∈ vs, c ∈ iterLinks v := by
  induction vs with
  | nil => simp [iterLinksL]
  | cons v r ih =>
    simp only [iterLinksL, List.mem_append, ih, List.mem_cons]
    constructor
    · rintro (h | ⟨w, hw, hc⟩)
      · exact ⟨v, Or.inl rfl, h⟩
      · exact ⟨w, Or.inr hw, hc⟩
    · rintro ⟨w, (rfl | hw), hc⟩
      · exact Or.inl hc
      · exact Or.inr ⟨w, hw, hc⟩

lemma sizeOf_snd_lt_of_mem_kvs {kvs : List (Key × Value)} {k : Key} {v : Value}
    (h : (k, v) ∈ kvs) : sizeOf v < 1 + sizeOf kvs := by
  have h1 := List.sizeOf_lt_of_mem h
  have h2 : sizeOf (k, v) = 1 + sizeOf k + sizeOf v := Prod.mk.sizeOf_spec k v
  omega

lemma sizeOf_lt_of_mem_vs {vs : List Value} {v : Value} (h : v ∈ vs) :
    sizeOf v < 1 + sizeOf vs := by
  have h1 := List.sizeOf_lt_of_mem h
  omega

lemma linksTo_of_mem_iterLinks (v : Value) (c : CID) :
    c ∈ iterLinks v → LinksTo v c :=
  match v with
  | .int _ => by
    simp only [iterLinks]
    exact fun h => absurd h (List.not_mem_nil c)
  | .str _ => by
    simp only [iterLinks]
    exact fun h => absurd h (List.not_mem_nil c)
  | .link c0 => by
    simp only [iterLinks, List.mem_singleton]
    rintro rfl
    exact .link _
  | .map kvs => by
    simp only [iterLinks]
    rw [mem_iterLinksKV]
    rintro ⟨⟨k, w⟩, hmem, hc⟩
    exact .map hmem (linksTo_of_mem_iterLinks w c hc)
  | .list vs => by
    simp only [iterLinks]
    rw [mem_iterLinksL]
    rintro ⟨w, hmem, hc⟩
    exact .list hmem (linksTo_of_mem_iterLinks w c hc)
  termination_by sizeOf v
  decreasing_by
  all_goals first
  | (have hs := sizeOf_snd_lt_of_mem_kvs hmem
     simp only [Value.map.sizeOf_spec]
     omega)
  | (have hs := sizeOf_lt_of_mem_vs hmem
     simp only [Value.list.sizeOf_spec]
     omega)

lemma mem_iterLinks_of_linksTo {v : Value} {c : CID} (h : LinksTo v c) :
    c ∈ iterLinks v := by
  induction h with
  | link c => simp [iterLinks]
  | map hmem _ ih =>
    simp only [iterLinks]
    rw [mem_iterLinksKV]
    exact ⟨_, hmem, ih⟩
  | list hmem _ ih =>
    simp only [iterLinks]
    rw [mem_iterLinksL]
    exact ⟨_, hmem, ih⟩

theorem mem_iterLinks_iff (v : Value) (c : CID) :
    c ∈ iterLinks v ↔ LinksTo v c :=
  ⟨linksTo_of_mem_iterLinks v c, mem_iterLinks_of_linksTo⟩

/-- C7: `iter_links` yields exactly the identifiers embedded in a value:
membership in the yielded sequence coincides with the `LinksTo`
occurrence relation, and the sequence is computed structurally — a map
yields the concatenated traversals of its values in entry order (keys,
being strings, are never traversed), a list yields the concatenated
traversals of its elements in order, an identifier yields itself, and
scalars yield nothing.  `iterLinks` is a pure total function of the
decoded value, so re-walking the same value reproduces the same finite
list and touches no storage. -/
theorem iterLinks_spec :
    (∀ v c, c ∈ iterLinks v ↔ LinksTo v c) ∧
    (∀ kvs, iterLinks (.map kvs) = iterLinksKV kvs) ∧
    (∀ k v r, iterLinksKV ((k, v) :: r) = iterLinks v ++ iterLinksKV r) ∧
    (iterLinksKV [] = []) ∧
    (∀ vs, iterLinks (.list vs) = iterLinksL vs) ∧
    (∀ v r, iterLinksL (v :: r) = iterLinks v ++ iterLinksL r) ∧
    (iterLinksL [] = []) ∧
    (∀ c, iterLinks (.link c) = [c]) ∧
    (∀ n, iterLinks (.int n) = []) ∧
    (∀ s, iterLinks (.str s) = []) :=
  ⟨mem_iterLinks_iff, fun _ => rfl, fun _ _ _ => rfl, rfl, fun _ => rfl,
   fun _ _ => rfl, rfl, fun _ => rfl, fun _ => rfl, fun _ => rfl⟩

/-! ## The in-memory backing store (`MappingCAStore`) -/

/-- Lookup in the backing mapping (a Python `MutableMapping` keyed by the
canonical text encoding of a normalized CID, modelled by the CID itself). -/
def dlookupC : List (CID × Bytes) → CID → Option Bytes
  | [], _ => none
  | (k, b) :: r, c => if k = c then some b else dlookupC r c

/-- Python dictionary assignment `m[c] = b`: replace the value in place if
the key is present, otherwise append a new entry. -/
def dinsertC : List (CID × Bytes) → CID → Bytes → List (CID × Bytes)
  | [], c, b => [(c, b)]
  | (k, w) :: r, c, b => if k = c then (c, b) :: r else (k, w) :: dinsertC r c b

/-- `MappingCAStore`: the backing mapping together with the configured
default hash function tag and default base tag. -/
structure MStore where
  mapping : List (CID × Bytes)
  dHash : Nat
  dBase : Nat
deriving DecidableEq, Repr

section MappingStore

-- `hashF` is the family of hash functions of the `multihash` registry,
-- indexed by the multihash tag: an external primitive.
variable (hashF : Nat → Bytes → Bytes)

/-- `MappingCAStore.normalize_cid`: `cid.set(base=self._default_base,
version=1)`. -/
def normalizeCidM (s : MStore) (c : CID) : CID :=
  { c with base := s.dBase, version := 1 }

/-- `MappingCAStore.get_raw`: `self._mapping[str(self.normalize_cid(cid))]`
(`none` models the `KeyError` on an absent key). -/
def mgetRaw (s : MStore) (c : CID) : Option Bytes :=
  dlookupC s.mapping (normalizeCidM s c)

/-- `MappingCAStore.put_raw`: hash the payload with the configured default
hash, build `CID(self._default_base, 1, codec, h)`, store the payload
under the key `str(cid)` and return the CID. -/
def putRawM (s : MStore) (b : Bytes) (codec : Nat) : CID × MStore :=
  let c : CID := ⟨1, s.dBase, codec, s.dHash, hashF s.dHash b⟩
  (c, { s with mapping := dinsertC s.mapping c b })

lemma dlookupC_dinsertC (l : List (CID × Bytes)) (c : CID) (b : Bytes) (c' : CID) :
    dlookupC (dinsertC l c b) c' = if c' = c then some b else dlookupC l c' := by
  induction l with
  | nil =>
    by_cases h : c' = c
    · simp [dinsertC, dlookupC, h]
    · have h2 : ¬ c = c' := fun hh => h hh.symm
      simp [dinsertC, dlookupC, h, h2]
  | cons p r ih =>
    obtain ⟨k, w⟩ := p
    by_cases hk : k = c
    · subst hk
      by_cases h : c' = k
      · subst h
        simp [dinsertC, dlookupC]
      · have h2 : ¬ k = c' := fun hh => h hh.symm
        simp [dinsertC, dlookupC, h, h2]
    · by_cases h2 : k = c'
      · subst h2
        simp [dinsertC, dlookupC, hk]
      · simp [dinsertC, dlookupC, hk, h2, ih]

/-! ### Claim theorems for the mapping store -/

/-- C2: `MappingCAStore.put_raw(b, codec)` computes the same identifier in
any two stores sharing the default hash-function and base configuration
(the identifier depends only on the payload, the codec and that
configuration), and `get_raw` applied to the returned identifier in the
updated store yields exactly the stored payload. -/
theorem mappingStore_content_addressing
    (s₁ s₂ : MStore) (b : Bytes) (codec : Nat)
    (hh : s₁.dHash = s₂.dHash) (hb : s₁.dBase = s₂.dBase) :
    (putRawM hashF s₁ b codec).1 = (putRawM hashF s₂ b codec).1 ∧
    mgetRaw (putRawM hashF s₁ b codec).2 (putRawM hashF s₁ b codec).1 = some b := by
  constructor
  · simp [putRawM, hh, hb]
  · simp only [putRawM, mgetRaw, normalizeCidM]
    rw [dlookupC_dinsertC]
    simp

/-- C2 witness: concrete instantiation with the identity-style hash family
on a store containing one prior entry. -/
theorem mappingStore_content_addressing_witness :
    (MStore.mk [] sha256Code 1).dHash = (MStore.mk [(⟨1, 1, rawCode, sha256Code, [9]⟩, [9])] sha256Code 1).dHash ∧
    (MStore.mk [] sha256Code 1).dBase = (MStore.mk [(⟨1, 1, rawCode, sha256Code, [9]⟩, [9])] sha256Code 1).dBase ∧
    ((putRawM (fun _ b => b) (MStore.mk [] sha256Code 1) [7, 8] rawCode).1 =
      (putRawM (fun _ b => b) (MStore.mk [(⟨1, 1, rawCode, sha256Code, [9]⟩, [9])] sha256Code 1) [7, 8] rawCode).1 ∧
     mgetRaw (putRawM (fun _ b => b) (MStore.mk [] sha256Code 1) [7, 8] rawCode).2
       (putRawM (fun _ b => b) (MStore.mk [] sha256Code 1) [7, 8] rawCode).1 = some [7, 8]) := by
  refine ⟨rfl, rfl, mappingStore_content_addressing (fun _ b => b) _ _ [7, 8] rawCode rfl rfl⟩

/-- C10: `MappingCAStore.put_raw` updates the backing mapping at exactly
one key, the canonical key of the computed identifier (which is already
normalized: `normalize_cid` leaves it fixed); every other key keeps its
previous value, and the store configuration is unchanged.  `get_raw`,
`get` and the containment check are modelled as pure reads
(`mgetRaw`): they return data and no store, mirroring that the source
only evaluates `self._mapping[...]`. -/
theorem mappingStore_putRaw_frame (s : MStore) (b : Bytes) (codec : Nat) :
    dlookupC (putRawM hashF s b codec).2.mapping (putRawM hashF s b codec).1 = some b ∧
    (∀ c' : CID, c' ≠ (putRawM hashF s b codec).1 →
      dlookupC (putRawM hashF s b codec).2.mapping c' = dlookupC s.mapping c') ∧
    normalizeCidM (putRawM hashF s b codec).2 (putRawM hashF s b codec).1 =
      (putRawM hashF s b codec).1 ∧
    (putRawM hashF s b codec).2.dHash = s.dHash ∧
    (putRawM hashF s b codec).2.dBase = s.dBase ∧
    mgetRaw (putRawM hashF s b codec).2 (putRawM hashF s b codec).1 = some b := by
  refine ⟨?_, ?_, ?_, rfl, rfl, ?_⟩
  · simp only [putRawM]
    rw [dlookupC_dinsertC]
    simp
  · intro c' hne
    simp only [putRawM] at hne ⊢
    rw [dlookupC_dinsertC, if_neg hne]
  · simp [putRawM, normalizeCidM]
  · simp only [putRawM, mgetRaw, normalizeCidM]
    rw [dlookupC_dinsertC]
    simp

/-- C10 witness: on a concrete one-entry store, the put touches only the
computed key and leaves the distinct pre-existing key unchanged. -/
theorem mappingStore_putRaw_frame_witness :
    (⟨0, 0, 0, 0, []⟩ : CID) ≠ (putRawM (fun _ b => b) (MStore.mk [(⟨0, 0, 0, 0, []⟩, [1])] sha256Code 2) [5] rawCode).1 ∧
    dlookupC (putRawM (fun _ b => b) (MStore.mk [(⟨0, 0, 0, 0, []⟩, [1])] sha256Code 2) [5] rawCode).2.mapping
      (⟨0, 0, 0, 0, []⟩ : CID) = some [1] := by
  refine ⟨by decide, ?_⟩
  have h := mappingStore_putRaw_frame (fun _ b => b)
    (MStore.mk [(⟨0, 0, 0, 0, []⟩, [1])] sha256Code 2) [5] rawCode
  have h2 := h.2.1 (⟨0, 0, 0, 0, []⟩ : CID) (by decide)
  rw [h2]
  decide

end MappingStore

/-! ## Result type for fallible / fuelled computations

`ok` models normal return, `err` a raised Python exception, `spin`
exhaustion of the fuel that models the source's unbounded recursion. -/

inductive Res (α : Type) where
  | ok (a : α)
  | err
  | spin
deriving DecidableEq, Repr

namespace Res

def bind : Res α → (α → Res β) → Res β
  | .ok a, f => f a
  | .err, _ => .err
  | .spin, _ => .spin

def map (f : α → β) : Res α → Res β
  | .ok a => .ok (f a)
  | .err => .err
  | .spin => .spin

@[simp] lemma bind_ok (a : α) (f : α → Res β) : bind (.ok a) f = f a := rfl
@[simp] lemma bind_err (f : α → Res β) : bind .err f = .err := rfl
@[simp] lemma bind_spin (f : α → Res β) : bind .spin f = .spin := rfl
@[simp] lemma map_ok (f : α → β) (a : α) : map f (.ok a) = .ok (f a) := rfl
@[simp] lemma map_err (f : α → β) : map f (.err : Res α) = .err := rfl
@[simp] lemma map_spin (f : α → β) : map f (.spin : Res α) = .spin := rfl

@[simp] lemma map_eq_ok {f : α → β} {r : Res α} {b : β} :
    map f r = .ok b ↔ ∃ a, r = .ok a ∧ f a = b := by
  cases r <;> simp [map]

@[simp] lemma bind_eq_ok {f : α → Res β} {r : Res α} {b : β} :
    bind r f = .ok b ↔ ∃ a, r = .ok a ∧ f a = .ok b := by
  cases r <;> simp [bind]

end Res

/-! ## Archive export (`to_car` / `_to_car`, contentstore.py lines 88-131) -/

/-- Unsigned LEB128 varint encoding (`varint.encode` of the
`multiformats` library). -/
def varintEnc (n : Nat) : Bytes :=
  if h : n < 128 then [n] else (n % 128 + 128) :: varintEnc (n / 128)
termination_by n
decreasing_by exact Nat.div_lt_self (by omega) (by omega)

/-- Canonical binary encoding of a CID (`bytes(root)`): varint version,
varint codec, then the multihash (varint hash tag, varint digest length,
digest). -/
def cidBytes (c : CID) : Bytes :=
  varintEnc c.version ++ varintEnc c.codec ++ varintEnc c.hashFn ++
    varintEnc c.digest.length ++ c.digest

/-- One framed archive entry:
`varint(len(cid_bytes) + len(data)) || cid_bytes || data`. -/
def frameBytes (p : CID × Bytes) : Bytes :=
  varintEnc ((cidBytes p.1).length + p.2.length) ++ cidBytes p.1 ++ p.2

/-- The header value `{"version": 1, "roots": [root]}`. -/
def carHeaderValue (root : CID) : Value :=
  .map [("version".data, .int 1), ("roots".data, .list [.link root])]

section CarExport

-- `fetch` models `self.get_raw` of the abstract store (`none` = the
-- store's NotFound / KeyError); `dec` models `dag_cbor.decode`
-- (`none` = a decode exception); `enc` models `dag_cbor.encode`.
variable (fetch : CID → Option Bytes) (dec : Bytes → Option Value)
variable (enc : Value → Bytes)

mutual

/-- `_to_car(root, stream, already_written)`: writes the frame of `root`
unless already written, then recurses into the links of the decoded value
if and only if `root.codec == DagCborCodec`.  Returns the bytes written
and the updated written set (most recently written first). -/
def toCarGo : Nat → CID → List CID → Res (Bytes × List CID)
  | 0, _, _ => .spin
  | f + 1, root, written =>
    if root ∈ written then .ok ([], written)
    else
      match fetch root with
      | none => .err
      | some data =>
        let frame := frameBytes (root, data)
        if root.codec = dagCborCode then
          match dec data with
          | none => .err
          | some v =>
            (toCarChildren f (iterLinks v) (root :: written)).map
              (fun p => (frame ++ p.1, p.2))
        else .ok (frame, root :: written)
termination_by structural f => f

/-- The `for child in iter_links(value)` loop of `_to_car`, accumulating
written bytes across the children in order. -/
def toCarChildren : Nat → List CID → List CID → Res (Bytes × List CID)
  | 0, _, _ => .spin
  | _ + 1, [], w => .ok ([], w)
  | f + 1, c :: cs, w =>
    (toCarGo f c w).bind fun p =>
      (toCarChildren f cs p.2).map fun q => (p.1 ++ q.1, q.2)
termination_by structural f => f

end

/-- `to_car(root)` (buffered form): the length-prefixed dag-cbor header
`{"version": 1, "roots": [root]}` followed by the depth-first body. -/
def toCar (f : Nat) (root : CID) : Res Bytes :=
  let header := enc (carHeaderValue root)
  (toCarGo fetch dec f root []).map
    (fun p => varintEnc header.length ++ header ++ p.1)

mutual

/-- Specification-side description of the export body: the list of
`(identifier, block)` frames in depth-first pre-order with the
already-written set threaded through, recursing into links exactly when
the codec is dag-cbor. -/
def carFrames : Nat → CID → List CID → Res (List (CID × Bytes) × List CID)
  | 0, _, _ => .spin
  | f + 1, root, written =>
    if root ∈ written then .ok ([], written)
    else
      match fetch root with
      | none => .err
      | some data =>
        if root.codec = dagCborCode then
          match dec data with
          | none => .err
          | some v =>
            (carFramesChildren f (iterLinks v) (root :: written)).map
              (fun p => ((root, data) :: p.1, p.2))
        else .ok ([(root, data)], root :: written)
termination_by structural f => f

/-- Frame lists of a list of children, in order. -/
def carFramesChildren : Nat → List CID → List CID → Res (List (CID × Bytes) × List CID)
  | 0, _, _ => .spin
  | _ + 1, [], w => .ok ([], w)
  | f + 1, c :: cs, w =>
    (carFrames f c w).bind fun p =>
      (carFramesChildren f cs p.2).map fun q => (p.1 ++ q.1, q.2)
termination_by structural f => f

end

lemma toCarGo_eq_carFrames :
    ∀ f, (∀ root written,
        toCarGo fetch dec f root written =
          (carFrames fetch dec f root written).map
            (fun p => ((p.1.map frameBytes).flatten, p.2))) ∧
      (∀ cs written,
        toCarChildren fetch dec f cs written =
          (carFramesChildren fetch dec f cs written).map
            (fun p => ((p.1.map frameBytes).flatten, p.2))) := by
  intro f
  induction f with
  | zero => exact ⟨fun _ _ => rfl, fun _ _ => rfl⟩
  | succ f ih =>
    refine ⟨fun root written => ?_, fun cs written => ?_⟩
    · rw [toCarGo, carFrames]
      by_cases hmem : root ∈ written
      · simp [hmem]
      · simp only [if_neg hmem]
        cases hfetch : fetch root with
        | none => rfl
        | some data =>
          dsimp only
          by_cases hcodec : root.codec = dagCborCode
          · simp only [if_pos hcodec]
            cases hdec : dec data with
            | none => rfl
            | some v =>
              dsimp only
              rw [ih.2 (iterLinks v) (root :: written)]
              cases carFramesChildren fetch dec f (iterLinks v) (root :: written) <;>
                simp [Res.map]
          · simp only [if_neg hcodec]
            simp [Res.map]
    · match cs with
      | [] => rfl
      | c :: cs =>
        rw [toCarChildren, carFramesChildren]
        rw [ih.1 c written]
        cases carFrames fetch dec f c written with
        | ok p =>
          simp only [Res.map, Res.bind]
          rw [ih.2 cs p.2]
          cases carFramesChildren fetch dec f cs p.2 <;> simp [Res.map, Res.bind]
        | err => rfl
        | spin => rfl

/-- The invariant established by one export: `w` is exactly the frames
plus the initial written set, every framed identifier is new, no
identifier is framed twice, every frame holds the fetched block, and
every link of a framed structured block ends up written. -/
def FramesInv (written : List CID) (l : List (CID × Bytes)) (w : List CID) : Prop :=
  (∀ c, c ∈ w ↔ c ∈ l.map Prod.fst ∨ c ∈ written) ∧
  (∀ c ∈ l.map Prod.fst, c ∉ written) ∧
  (l.map Prod.fst).Nodup ∧
  (∀ p ∈ l, fetch p.1 = some p.2) ∧
  (∀ p ∈ l, p.1.codec = dagCborCode →
    ∃ v, dec p.2 = some v ∧ ∀ d ∈ iterLinks v, d ∈ w)

lemma carFrames_inv :
    ∀ f, (∀ root written l w,
        carFrames fetch dec f root written = .ok (l, w) →
          FramesInv fetch dec written l w ∧ root ∈ w ∧
          (∀ c ∈ l.map Prod.fst, c = root ∨ ∃ p ∈ l, p.1.codec = dagCborCode ∧
            ∃ v, dec p.2 = some v ∧ c ∈ iterLinks v)) ∧
      (∀ cs written l w,
        carFramesChildren fetch dec f cs written = .ok (l, w) →
          FramesInv fetch dec written l w ∧ (∀ c ∈ cs, c ∈ w) ∧
          (∀ c ∈ l.map Prod.fst, c ∈ cs ∨ ∃ p ∈ l, p.1.codec = dagCborCode ∧
            ∃ v, dec p.2 = some v ∧ c ∈ iterLinks v)) := by
  intro f
  induction f with
  | zero =>
    constructor
    · intro root written l w h
      rw [carFrames] at h
      cases h
    · intro cs written l w h
      rw [carFramesChildren] at h
      cases h
  | succ f ih =>
    constructor
    · intro root written l w h
      rw [carFrames] at h
      by_cases hmem : root ∈ written
      · rw [if_pos hmem] at h
        obtain ⟨rfl, rfl⟩ : [] = l ∧ written = w := by
          simpa using h
        refine ⟨⟨?_, ?_, ?_, ?_, ?_⟩, hmem, ?_⟩
        · intro c; simp
        · intro c hc; simp at hc
        · simp
        · intro p hp; simp at hp
        · intro p hp; simp at hp
        · intro c hc; simp at hc
      · rw [if_neg hmem] at h
        cases hfetch : fetch root with
        | none => rw [hfetch] at h; cases h
        | some data =>
          rw [hfetch] at h
          dsimp only at h
          by_cases hcodec : root.codec = dagCborCode
          · rw [if_pos hcodec] at h
            cases hdec : dec data with
            | none => rw [hdec] at h; cases h
            | some v =>
              rw [hdec] at h
              dsimp only at h
              rw [Res.map_eq_ok] at h
              obtain ⟨q, hq, hlw⟩ := h
              obtain ⟨rfl, rfl⟩ : (root, data) :: q.1 = l ∧ q.2 = w := by
                constructor
                · exact congrArg Prod.fst hlw
                · exact congrArg Prod.snd hlw
              obtain ⟨⟨hi, hnew, hnd, hfe, hcl⟩, hall, hsnd⟩ :=
                (ih.2) (iterLinks v) (root :: written) q.1 q.2 hq
              have hrootw : root ∈ q.2 := (hi root).2 (Or.inr (by simp))
              refine ⟨⟨?_, ?_, ?_, ?_, ?_⟩, hrootw, ?_⟩
              · intro c
                rw [hi c]
                simp only [List.map_cons, List.mem_cons]
                tauto
              · intro c hc
                simp only [List.map_cons, List.mem_cons] at hc
                rcases hc with rfl | hc
                · exact hmem
                · intro hcw
                  exact hnew c hc (by simp [hcw])
              · simp only [List.map_cons, List.nodup_cons]
                refine ⟨fun hmemq => ?_, hnd⟩
                exact hnew root hmemq (by simp)
              · intro p hp
                rcases List.mem_cons.1 hp with rfl | hp
                · exact hfetch
                · exact hfe p hp
              · intro p hp hpc
                rcases List.mem_cons.1 hp with rfl | hp
                · exact ⟨v, hdec, hall⟩
                · exact hcl p hp hpc
              · intro c hc
                simp only [List.map_cons, List.mem_cons] at hc
                rcases hc with rfl | hc
                · exact Or.inl rfl
                · rcases hsnd c hc with hcv | ⟨p, hp, hpc, w2, hw2, hcw2⟩
                  · exact Or.inr ⟨(root, data), by simp, hcodec, v, hdec, hcv⟩
                  · exact Or.inr ⟨p, List.mem_cons_of_mem _ hp, hpc, w2, hw2, hcw2⟩
          · rw [if_neg hcodec] at h
            obtain ⟨rfl, rfl⟩ : [(root, data)] = l ∧ root :: written = w := by
              simpa using h
            refine ⟨⟨?_, ?_, ?_, ?_, ?_⟩, by simp, ?_⟩
            · intro c; simp
            · intro c hc
              simp only [List.map_cons, List.map_nil, List.mem_singleton] at hc
              subst hc; exact hmem
            · simp
            · intro p hp
              rcases List.mem_singleton.1 hp with rfl
              exact hfetch
            · intro p hp hpc
              rcases List.mem_singleton.1 hp with rfl
              exact absurd hpc hcodec
            · intro c hc
              simp only [List.map_cons, List.map_nil, List.mem_singleton] at hc
              exact Or.inl hc
    · intro cs written l w h
      match cs with
      | [] =>
        rw [carFramesChildren] at h
        obtain ⟨rfl, rfl⟩ : [] = l ∧ written = w := by
          simpa using h
        refine ⟨⟨?_, ?_, ?_, ?_, ?_⟩, ?_, ?_⟩ <;>
          simp
      | c :: cs =>
        rw [carFramesChildren] at h
        rw [Res.bind_eq_ok] at h
        obtain ⟨p, hp, h⟩ := h
        rw [Res.map_eq_ok] at h
        obtain ⟨q, hq, hlw⟩ := h
        obtain ⟨rfl, rfl⟩ : p.1 ++ q.1 = l ∧ q.2 = w := by
          constructor
          · exact congrArg Prod.fst hlw
          · exact congrArg Prod.snd hlw
        obtain ⟨⟨ai, anew, and, afe, acl⟩, aroot, asnd⟩ :=
          (ih.1) c written p.1 p.2 (by rw [← hp])
        obtain ⟨⟨bi, bnew, bnd, bfe, bcl⟩, ball, bsnd⟩ :=
          (ih.2) cs p.2 q.1 q.2 (by rw [← hq])
        have hsubA : ∀ x, x ∈ p.2 → x ∈ q.2 := fun x hx => (bi x).2 (Or.inr hx)
        have hsubW : ∀ x, x ∈ written → x ∈ p.2 := fun x hx => (ai x).2 (Or.inr hx)
        refine ⟨⟨?_, ?_, ?_, ?_, ?_⟩, ?_, ?_⟩
        · intro x
          rw [bi x, ai x]
          simp only [List.map_append, List.mem_append]
          tauto
        · intro x hx
          simp only [List.map_append, List.mem_append] at hx
          rcases hx with hx | hx
          · exact anew x hx
          · intro hxw
            exact bnew x hx (hsubW x hxw)
        · simp only [List.map_append]
          rw [List.nodup_append]
          refine ⟨and, bnd, ?_⟩
          intro x hx hx2
          exact bnew x hx2 ((ai x).2 (Or.inl hx))
        · intro pp hpp
          rcases List.mem_append.1 hpp with hpp | hpp
          · exact afe pp hpp
          · exact bfe pp hpp
        · intro pp hpp hppc
          rcases List.mem_append.1 hpp with hpp | hpp
          · obtain ⟨v, hv, hall⟩ := acl pp hpp hppc
            exact ⟨v, hv, fun d hd => hsubA d (hall d hd)⟩
          · exact bcl pp hpp hppc
        · intro x hx
          rcases List.mem_cons.1 hx with rfl | hx
          · exact hsubA x aroot
          · exact ball x hx
        · intro x hx
          simp only [List.map_append, List.mem_append] at hx
          rcases hx with hx | hx
          · rcases asnd x hx with rfl | ⟨pp, hpp, hppc, v, hv, hxv⟩
            · exact Or.inl (by simp)
            · exact Or.inr ⟨pp, List.mem_append_left _ hpp, hppc, v, hv, hxv⟩
          · rcases bsnd x hx with hxcs | ⟨pp, hpp, hppc, v, hv, hxv⟩
            · exact Or.inl (List.mem_cons_of_mem _ hxcs)
            · exact Or.inr ⟨pp, List.mem_append_right _ hpp, hppc, v, hv, hxv⟩

/-- C4: `to_car` writes `varint(len(header)) || header` with
`header = dag_cbor.encode({"version": 1, "roots": [root]})`, followed by
one frame `varint(len(cid_bytes)+len(data)) || cid_bytes || data` per
block, in the depth-first pre-order with dedup described by `carFrames`,
which recurses into the links of a decoded block exactly when the block's
codec is the dag-cbor tag. -/
theorem toCar_stream_layout (f : Nat) (root : CID) :
    toCar fetch dec enc f root =
      (carFrames fetch dec f root []).map
        (fun p => varintEnc (enc (carHeaderValue root)).length ++
          enc (carHeaderValue root) ++ (p.1.map frameBytes).flatten) := by
  unfold toCar
  rw [(toCarGo_eq_carFrames fetch dec f).1 root []]
  cases carFrames fetch dec f root [] <;> simp [Res.map]

/-- C3: in one export call the byte stream is the header frame followed
by the frames of a list `l` of blocks in which no identifier occurs
twice; the identifiers of `l` are exactly the identifiers reachable from
the root (the root is framed, every link of a framed dag-cbor block is
framed, and every framed identifier is the root or a link of a framed
dag-cbor block). -/
theorem toCar_dedup (f : Nat) (root : CID) (l : List (CID × Bytes)) (w : List CID)
    (h : carFrames fetch dec f root [] = .ok (l, w)) :
    toCar fetch dec enc f root =
      .ok (varintEnc (enc (carHeaderValue root)).length ++
        enc (carHeaderValue root) ++ (l.map frameBytes).flatten) ∧
    (l.map Prod.fst).Nodup ∧
    root ∈ l.map Prod.fst ∧
    (∀ p ∈ l, fetch p.1 = some p.2) ∧
    (∀ p ∈ l, p.1.codec = dagCborCode →
      ∃ v, dec p.2 = some v ∧ ∀ d ∈ iterLinks v, d ∈ l.map Prod.fst) ∧
    (∀ c ∈ l.map Prod.fst, c = root ∨ ∃ p ∈ l, p.1.codec = dagCborCode ∧
      ∃ v, dec p.2 = some v ∧ c ∈ iterLinks v) := by
  obtain ⟨⟨hi, hnew, hnd, hfe, hcl⟩, hroot, hsnd⟩ :=
    (carFrames_inv fetch dec f).1 root [] l w h
  have hw : ∀ c, c ∈ w ↔ c ∈ l.map Prod.fst := by
    intro c
    rw [hi c]
    simp
  refine ⟨?_, hnd, (hw root).1 hroot, hfe, ?_, hsnd⟩
  · rw [toCar_stream_layout, h]
    rfl
  · intro p hp hpc
    obtain ⟨v, hv, hall⟩ := hcl p hp hpc
    exact ⟨v, hv, fun d hd => (hw d).1 (hall d hd)⟩

end CarExport

/-! ### Concrete witness fixtures for the export theorems -/

/-- A concrete structured root identifier. -/
def cidA : CID := ⟨1, 0, dagCborCode, sha256Code, [1]⟩

/-- A concrete raw child identifier. -/
def cidB : CID := ⟨1, 0, rawCode, sha256Code, [2]⟩

/-- A structured value referencing the same child identifier twice. -/
def valA : Value := .map [(['a'], .link cidB), (['b'], .link cidB)]

/-- A concrete two-block store fetcher. -/
def fetchW : CID → Option Bytes :=
  fun c => if c = cidA then some [10] else if c = cidB then some [20] else none

/-- A concrete decoder table for the blocks of `fetchW`. -/
def decW0 : Bytes → Option Value :=
  fun b => if b = [10] then some valA else none

/-- A trivial encoder used for the header in witnesses. -/
def encW0 : Value → Bytes := fun _ => []

/-- C3 witness: exporting `cidA`, whose value references `cidB` twice,
frames `cidB` exactly once. -/
theorem toCar_dedup_witness :
    carFrames fetchW decW0 6 cidA [] =
      .ok ([(cidA, [10]), (cidB, [20])], [cidB, cidA]) ∧
    (([(cidA, [10]), (cidB, [20])] : List (CID × Bytes)).map Prod.fst).Nodup ∧
    cidA ∈ ([(cidA, [10]), (cidB, [20])] : List (CID × Bytes)).map Prod.fst := by
  have h : carFrames fetchW decW0 6 cidA [] =
      .ok ([(cidA, [10]), (cidB, [20])], [cidB, cidA]) := by decide
  have h2 := toCar_dedup fetchW decW0 encW0 6 cidA _ _ h
  exact ⟨h, h2.2.1, h2.2.2.1⟩



/-! ## Archive import (`import_car`, contentstore.py lines 133-140)

`read_car` lives in `ipldstore/car.py`, which is not part of the provided
sources; it is modelled from the specification (length-prefixed header
decoded as a structured map with a `roots` list of identifiers, then
length-prefixed entries `cid_bytes || payload`, each digest-verified). -/

/-- Unsigned LEB128 varint decoding: returns the value and the remaining
bytes, `none` on truncation. -/
def varintDec : Bytes → Option (Nat × Bytes)
  | [] => none
  | b :: rest =>
    if b < 128 then some (b, rest)
    else
      match varintDec rest with
      | none => none
      | some (n, r) => some (b % 128 + n * 128, r)

/-- Modelled from the spec: parse the modern variable-length binary
identifier — a self-delimiting version integer (must equal 1), codec tag,
hash-function tag and digest length, then that many digest bytes; returns
the identifier and the remaining bytes. -/
def cidFromBytes (bs : Bytes) : Option (CID × Bytes) :=
  match varintDec bs with
  | none => none
  | some (ver, r1) =>
    if ver = 1 then
      match varintDec r1 with
      | none => none
      | some (codec, r2) =>
        match varintDec r2 with
        | none => none
        | some (hfn, r3) =>
          match varintDec r3 with
          | none => none
          | some (dlen, r4) =>
            if dlen ≤ r4.length then
              some (⟨1, 0, codec, hfn, r4.take dlen⟩, r4.drop dlen)
            else none
    else none

/-- Association lookup in a string-keyed structured map. -/
def dlookup : List (Key × Value) → Key → Option Value
  | [], _ => none
  | (k, v) :: r, q => if k = q then some v else dlookup r q

/-- A list of structured values that must all be identifiers. -/
def asLinks : List Value → Option (List CID)
  | [] => some []
  | .link c :: r =>
    match asLinks r with
    | none => none
    | some cs => some (c :: cs)
  | _ => none

section ImportCar

variable (hashF : Nat → Bytes → Bytes) (dec : Bytes → Option Value)

/-- Modelled from the spec: the entry loop of `read_car` — read a varint
frame length (clean EOF on exhausted stream), take that many bytes, split
them into identifier and payload, verify the payload digest against the
identifier, and continue; any truncation, unparsable identifier or digest
mismatch aborts the parse.  The third component of an entry is the stream
offset reported by `read_car` (unused by `import_car`, modelled as 0). -/
def readCarGo : Nat → Bytes → Option (List (CID × Bytes × Nat))
  | 0, _ => none
  | _ + 1, [] => some []
  | f + 1, b :: rest =>
    match varintDec (b :: rest) with
    | none => none
    | some (flen, r1) =>
      if flen ≤ r1.length then
        match cidFromBytes (r1.take flen) with
        | none => none
        | some (cid, payload) =>
          if hashF cid.hashFn payload = cid.digest then
            match readCarGo f (r1.drop flen) with
            | none => none
            | some blocks => some ((cid, payload, 0) :: blocks)
          else none
      else none
termination_by structural f => f

/-- Modelled from the spec: `read_car` — parse the length-prefixed
header, decode it as a structured map whose `"roots"` entry is a list of
identifiers, then parse the framed entries. -/
def readCar (bs : Bytes) : Option (List CID × List (CID × Bytes × Nat)) :=
  match varintDec bs with
  | none => none
  | some (hlen, r1) =>
    if hlen ≤ r1.length then
      match dec (r1.take hlen) with
      | some (.map kvs) =>
        match dlookup kvs "roots".data with
        | some (.list rs) =>
          match asLinks rs with
          | none => none
          | some roots =>
            match readCarGo hashF f0 (r1.drop hlen) with
            | none => none
            | some blocks => some (roots, blocks)
        | _ => none
      | _ => none
    else none
  where f0 : Nat := bs.length + 1

/-- `ContentAddressableStore.import_car` instantiated at the in-memory
mapping store: parse the stream with `read_car`, normalize the header
roots, store each entry's payload with `put_raw` under the entry
identifier's codec, and return the normalized roots. -/
def importCar (s : MStore) (bs : Bytes) : Option (List CID × MStore) :=
  match readCar hashF dec bs with
  | none => none
  | some (roots, blocks) =>
    some (roots.map (normalizeCidM s),
      blocks.foldl (fun st p => (putRawM hashF st p.2.1 p.1.codec).2) s)

lemma readCarGo_verified (f : Nat) (bs : Bytes) (blocks : List (CID × Bytes × Nat))
    (h : readCarGo hashF f bs = some blocks) :
    ∀ p ∈ blocks, hashF p.1.hashFn p.2.1 = p.1.digest := by
  induction f generalizing bs blocks with
  | zero => rw [readCarGo] at h; cases h
  | succ f ih =>
    match bs with
    | [] =>
      rw [readCarGo] at h
      obtain rfl : [] = blocks := by simpa using h
      intro p hp
      cases hp
    | b :: rest =>
      rw [readCarGo] at h
      cases hv : varintDec (b :: rest) with
      | none => rw [hv] at h; cases h
      | some p1 =>
        obtain ⟨flen, r1⟩ := p1
        rw [hv] at h
        dsimp only at h
        by_cases hle : flen ≤ r1.length
        · rw [if_pos hle] at h
          cases hc : cidFromBytes (r1.take flen) with
          | none => rw [hc] at h; cases h
          | some pc =>
            obtain ⟨cid, payload⟩ := pc
            rw [hc] at h
            dsimp only at h
            by_cases hd : hashF cid.hashFn payload = cid.digest
            · rw [if_pos hd] at h
              cases hr : readCarGo hashF f (r1.drop flen) with
              | none => rw [hr] at h; cases h
              | some bl =>
                rw [hr] at h
                obtain rfl : (cid, payload, 0) :: bl = blocks := by simpa using h
                intro p hp
                rcases List.mem_cons.1 hp with rfl | hp
                · exact hd
                · exact ih _ _ hr p hp
            · rw [if_neg hd] at h; cases h
        · rw [if_neg hle] at h; cases h

/-- C9: on a parseable archive stream, `import_car` returns exactly the
header's roots passed through `normalize_cid`, its store effect is the
left fold of `put_raw(payload, cid.codec)` over the parsed entries in
stream order, and each parsed entry was digest-verified by the parser. -/
theorem importCar_spec (s : MStore) (bs : Bytes) (roots : List CID)
    (blocks : List (CID × Bytes × Nat))
    (h : readCar hashF dec bs = some (roots, blocks)) :
    importCar hashF dec s bs =
      some (roots.map (normalizeCidM s),
        blocks.foldl (fun st p => (putRawM hashF st p.2.1 p.1.codec).2) s) ∧
    (∀ p ∈ blocks, hashF p.1.hashFn p.2.1 = p.1.digest) := by
  constructor
  · rw [importCar, h]
  · rw [readCar] at h
    cases hv : varintDec bs with
    | none => rw [hv] at h; cases h
    | some p1 =>
      obtain ⟨hlen, r1⟩ := p1
      rw [hv] at h
      dsimp only at h
      by_cases hle : hlen ≤ r1.length
      · rw [if_pos hle] at h
        cases hdec : dec (r1.take hlen) with
        | none => rw [hdec] at h; cases h
        | some v =>
          rw [hdec] at h
          match v with
          | .map kvs =>
            dsimp only at h
            cases hroots : dlookup kvs "roots".data with
            | none => rw [hroots] at h; cases h
            | some rv =>
              rw [hroots] at h
              match rv with
              | .list rs =>
                dsimp only at h
                cases hlinks : asLinks rs with
                | none => rw [hlinks] at h; cases h
                | some rl =>
                  rw [hlinks] at h
                  dsimp only at h
                  cases hgo : readCarGo hashF (bs.length + 1) (r1.drop hlen) with
                  | none => rw [readCar.f0] at h; rw [hgo] at h; cases h
                  | some bl =>
                    rw [readCar.f0] at h; rw [hgo] at h
                    obtain ⟨rfl, rfl⟩ : rl = roots ∧ bl = blocks := by
                      simpa using h
                    exact readCarGo_verified hashF _ _ _ hgo
              | .int n => cases h
              | .str k => cases h
              | .link c => cases h
              | .map kvs2 => cases h
          | .int n => cases h
          | .str k => cases h
          | .link c => cases h
          | .list vs => cases h
      · rw [if_neg hle] at h; cases h

end ImportCar

/-! ### Concrete witness fixtures for the import theorem -/

/-- The raw block of the witness archive. -/
def cidC : CID := ⟨1, 0, rawCode, sha256Code, [20]⟩

/-- Identity-style multihash family for witnesses. -/
def hashFW : Nat → Bytes → Bytes := fun _ b => b

/-- Decoder table mapping the witness header bytes to a header map. -/
def decW1 : Bytes → Option Value :=
  fun b => if b = [7] then some (.map [("roots".data, .list [.link cidB])]) else none

/-- A complete concrete archive: `varint(1) || header || varint(6) ||
cid_bytes(cidC) || payload` with payload `[20]`. -/
def archiveW : Bytes := [1, 7, 6, 1, 85, 18, 1, 20, 20]

/-- C9 witness: the concrete archive parses, and `import_car` returns the
normalized header root and performs the fold of `put_raw` over the single
verified entry. -/
theorem importCar_spec_witness :
    readCar hashFW decW1 archiveW = some ([cidB], [(cidC, ([20], 0))]) ∧
    importCar hashFW decW1 (MStore.mk [] sha256Code 0) archiveW =
      some (([cidB].map (normalizeCidM (MStore.mk [] sha256Code 0))),
        (([(cidC, ([20], 0))] : List (CID × Bytes × Nat)).foldl
          (fun st p => (putRawM hashFW st p.2.1 p.1.codec).2)
          (MStore.mk [] sha256Code 0))) := by
  have h : readCar hashFW decW1 archiveW = some ([cidB], [(cidC, ([20], 0))]) := by
    decide
  exact ⟨h, (importCar_spec hashFW decW1 (MStore.mk [] sha256Code 0)
    archiveW [cidB] [(cidC, ([20], 0))] h).1⟩

/-! ## The IPFS-backed store (`IPFSStore`, contentstore.py lines 203-325)

The remote daemon is modelled as a content-addressed block mapping: both
`/api/v0/add` and `/api/v0/dag/put` store the posted block and return an
identifier whose digest is the multihash of the block under the store's
default hash, and `/api/v0/block/get` / `/api/v0/cat` return the block of
the requested identifier.  Pinning flags do not affect content and are
not modelled. -/

/-- The remote daemon's block space. -/
abbrev IStore := List (CID × Bytes)

/-- The decimal digit character of `n < 10`. -/
def digitChar (n : Nat) : Char := Char.ofNat (48 + n)

/-- Fuelled decimal printer for naturals (least significant digit
computed last, standard most-significant-first output). -/
def natReprGo : Nat → Nat → List Char
  | 0, _ => []
  | f + 1, n => if n < 10 then [digitChar n] else natReprGo f (n / 10) ++ [digitChar (n % 10)]

/-- Decimal representation of a natural number. -/
def natRepr (n : Nat) : List Char := natReprGo (n + 1) n

/-- Decimal representation of a Python int (sign + digits), as produced
by an f-string. -/
def intRepr (i : Int) : List Char :=
  if i < 0 then '-' :: natRepr i.natAbs else natRepr i.toNat

/-- ASCII decimal digit test: exactly the characters the f-string
decimal printer emits.  On ASCII characters Python's `str.isnumeric`
holds precisely for these, so `isDigitCh` is also the restriction of
`isnumeric` to ASCII inputs (used to instantiate the `isnumeric` oracle
in concrete, all-ASCII witnesses and counterexamples). -/
def isDigitCh (c : Char) : Bool := 48 ≤ c.toNat && c.toNat ≤ 57

/-- The placeholder test of `recover_tree` (contentstore.py line 228):
`len(k) > 1 and k.startswith("/") and k[2:].isnumeric()` — note that the
character at index 1 is never inspected.  `str.isnumeric` on single
characters is the external character-class oracle `isNum` (it holds on
the ASCII digits and on every other Unicode numeral, e.g. `'½'`);
`"".isnumeric()` is `False`, whence the nonemptiness conjunct. -/
def isPlaceholderKey (isNum : Char → Bool) : Key → Bool
  | c :: _ :: rest => c == '/' && !rest.isEmpty && rest.all isNum
  | _ => false

/-- `grouper(seq, size)` (contentstore.py line 31), fuelled: chunks of
`size` consecutive elements (the last chunk may be shorter).  The source
assumes `size >= 1`. -/
def chunkListGo (size : Nat) : Nat → List α → List (List α)
  | 0, _ => []
  | _ + 1, [] => []
  | f + 1, a :: rest => (a :: rest.take (size - 1)) :: chunkListGo size f (rest.drop (size - 1))

/-- `grouper(seq, size)` as a total function. -/
def chunkList (size : Nat) (l : List α) : List (List α) := chunkListGo size (l.length + 1) l

/-- `isinstance(node, dict)`: view a structured value as a map. -/
def asMap : Value → Option (List (Key × Value))
  | .map kvs => some kvs
  | _ => none

/-- View a structured value as a tagged link (`CBORTag(42, ...)`); the
placeholder branch of `recover_tree` applies `.value[1:]` and
`CID.decode`, which succeed exactly on tagged links. -/
def asLink : Value → Option CID
  | .link c => some c
  | _ => none

/-- Python dictionary assignment for structured maps. -/
def dinsertV : List (Key × Value) → Key → Value → List (Key × Value)
  | [], k, v => [(k, v)]
  | (k0, w) :: r, k, v => if k0 = k then (k, v) :: r else (k0, w) :: dinsertV r k v

section IpfsStore

-- `enc`/`dec` model `cbor2.dumps(..., default=default_encoder)` /
-- `cbor2.loads`; `hashI` the daemon's default content hash; `pHash`
-- Python's `hash` of the frozenset of a group of keys (the argument is
-- the group in iteration order); `L` is `max_nodes_per_level`.
variable (enc : Value → Bytes) (dec : Bytes → Option Value)
variable (hashI : Bytes → Bytes) (pHash : List Key → Int) (L : Nat)
-- `isNum` models `str.isnumeric` on single characters: an external
-- character-class oracle, true on the ASCII digits `'0'-'9'` and on
-- every other Unicode numeral.
variable (isNum : Char → Bool)

/-- The identifier the daemon returns for a stored block. -/
def mkCidI (codec : Nat) (b : Bytes) : CID := ⟨1, 0, codec, sha256Code, hashI b⟩

/-- `IPFSStore.put_raw`: store the block, return its content-derived
identifier (`/api/v0/add` for dag-pb, `/api/v0/dag/put` otherwise; the
`should_pin` flag has no content effect). -/
def ipfsPutRaw (st : IStore) (b : Bytes) (codec : Nat) : CID × IStore :=
  (mkCidI hashI codec b, dinsertC st (mkCidI hashI codec b) b)

/-- `IPFSStore.get_raw`: fetch the block of an identifier
(`/api/v0/cat` for dag-pb, `/api/v0/block/get` otherwise; `none` models
a failed request). -/
def ipfsGetRaw (st : IStore) (c : CID) : Option Bytes := dlookupC st c

/-- The key of a stored sub-group:
`f"/{hash(frozenset(group_of_keys))}"` (contentstore.py line 280). -/
def genKey (g : List Key) : Key := '/' :: intRepr (pHash g)

mutual

/-- `IPFSStore.make_tree_structure` (contentstore.py lines 271-285):
non-dicts are returned unchanged; a dict within the size limit has its
values rebuilt recursively; an oversized dict is partitioned into groups
of `max_nodes_per_level` keys, each group's sub-dict is recursively
restructured and stored via `put_sub_tree`, the parent is rebuilt with
one placeholder link per group, and the rewrite recurses on the new
parent. -/
def makeTree : Nat → IStore → Value → Res (Value × IStore)
  | 0, _, _ => .spin
  | f + 1, st, v =>
    match asMap v with
    | some kvs =>
      if kvs.length ≤ L then
        (makeTreeVals f st kvs).map (fun p => (.map p.1, p.2))
      else
        (makeGroups f st (chunkList L (kvs.map Prod.fst)) kvs).bind
          (fun p => makeTree f p.2 (.map p.1))
    | none => .ok (v, st)
termination_by structural f => f

/-- The `for key in node: new_tree[key] = self.make_tree_structure(node[key])`
loop (dict keys are unique, so building by cons equals dict insertion). -/
def makeTreeVals : Nat → IStore → List (Key × Value) → Res (List (Key × Value) × IStore)
  | 0, _, _ => .spin
  | _ + 1, st, [] => .ok ([], st)
  | f + 1, st, (k, v) :: rest =>
    (makeTree f st v).bind fun p =>
      (makeTreeVals f p.2 rest).map fun q => ((k, p.1) :: q.1, q.2)
termination_by structural f => f

/-- The `for group_of_keys in grouper(...)` loop: rebuild each group's
sub-dict by key lookup, restructure it, store it with `put_sub_tree`
(`put_raw(cbor2.dumps(d), DagCborCodec)`), and emit one placeholder
entry per group (group keys are distinct under an injective group hash,
so building by cons equals dict insertion). -/
def makeGroups : Nat → IStore → List (List Key) → List (Key × Value) → Res (List (Key × Value) × IStore)
  | 0, _, _, _ => .spin
  | _ + 1, st, [], _ => .ok ([], st)
  | f + 1, st, g :: gs, kvs =>
    (makeTree f st (.map (g.filterMap (fun k => (dlookup kvs k).map (fun v => (k, v)))))).bind
      fun p =>
        (makeGroups f (ipfsPutRaw hashI p.2 (enc p.1) dagCborCode).2 gs kvs).map
          fun q => ((genKey pHash g, .link (ipfsPutRaw hashI p.2 (enc p.1) dagCborCode).1) :: q.1, q.2)
termination_by structural f => f

end

mutual

/-- `IPFSStore.recover_tree` (contentstore.py lines 222-238): non-dicts
are returned unchanged; in a dict, every placeholder key's linked node is
fetched, decoded and recursively recovered, every other entry is kept
with its value recursively recovered, and finally the keys of every
recovered node are merged into the result (re-recovering each merged
value). -/
def recoverTree : Nat → IStore → Value → Res Value
  | 0, _, _ => .spin
  | f + 1, st, v =>
    match asMap v with
    | some kvs =>
      (recoverEntries f st kvs).bind fun p =>
        (mergeRecovered f st p.1 p.2).map (fun ret => .map ret)
    | none => .ok v
termination_by structural f => f

/-- The first loop of `recover_tree`: build `ret_tree` from the
non-placeholder entries (in order) and collect `all_recovered` from the
placeholder entries (in order).  A placeholder value must be a tagged
link (`.value[1:]` on anything else raises), its target must be present
in the store and decodable. -/
def recoverEntries : Nat → IStore → List (Key × Value) → Res (List (Key × Value) × List Value)
  | 0, _, _ => .spin
  | _ + 1, _, [] => .ok ([], [])
  | f + 1, st, (k, v) :: rest =>
    if isPlaceholderKey isNum k then
      match asLink v with
      | some c =>
        match dlookupC st c with
        | none => .err
        | some b =>
          match dec b with
          | none => .err
          | some w =>
            (recoverTree f st w).bind fun r =>
              (recoverEntries f st rest).map fun q => (q.1, r :: q.2)
      | none => .err
    else
      (recoverTree f st v).bind fun r =>
        (recoverEntries f st rest).map fun q => ((k, r) :: q.1, q.2)
termination_by structural f => f

/-- The second loop of `recover_tree`: merge each recovered node's
entries into `ret_tree` (iterating a non-dict raises). -/
def mergeRecovered : Nat → IStore → List (Key × Value) → List Value → Res (List (Key × Value))
  | 0, _, _, _ => .spin
  | _ + 1, _, ret, [] => .ok ret
  | f + 1, st, ret, r :: rs =>
    match asMap r with
    | some rkvs =>
      (mergeOne f st ret rkvs).bind fun ret2 => mergeRecovered f st ret2 rs
    | none => .err
termination_by structural f => f

/-- `for k in recovered: ret_tree[k] = self.recover_tree(recovered[k])`. -/
def mergeOne : Nat → IStore → List (Key × Value) → List (Key × Value) → Res (List (Key × Value))
  | 0, _, _, _ => .spin
  | _ + 1, _, ret, [] => .ok ret
  | f + 1, st, ret, (k, w) :: rest =>
    (recoverTree f st w).bind fun w2 => mergeOne f st (dinsertV ret k w2) rest
termination_by structural f => f

end

lemma recover_mono :
    ∀ f, ∀ f', f ≤ f' →
      (∀ st v r, recoverTree dec isNum f st v = .ok r → recoverTree dec isNum f' st v = .ok r) ∧
      (∀ st kvs pr, recoverEntries dec isNum f st kvs = .ok pr →
        recoverEntries dec isNum f' st kvs = .ok pr) ∧
      (∀ st ret rs out, mergeRecovered dec isNum f st ret rs = .ok out →
        mergeRecovered dec isNum f' st ret rs = .ok out) ∧
      (∀ st ret rkvs out, mergeOne dec isNum f st ret rkvs = .ok out →
        mergeOne dec isNum f' st ret rkvs = .ok out) := by
  intro f
  induction f with
  | zero =>
    intro f' _
    refine ⟨?_, ?_, ?_, ?_⟩ <;> intro st
    · intro v r h; rw [recoverTree] at h; cases h
    · intro kvs pr h; rw [recoverEntries] at h; cases h
    · intro ret rs out h; rw [mergeRecovered] at h; cases h
    · intro ret rkvs out h; rw [mergeOne] at h; cases h
  | succ f ih =>
    intro f' hf'
    match f', hf' with
    | f2 + 1, hf' =>
    have hff : f ≤ f2 := by omega
    refine ⟨?_, ?_, ?_, ?_⟩
    · intro st v r h
      rw [recoverTree] at h ⊢
      cases hm : asMap v with
      | some kvs =>
        rw [hm] at h
        dsimp only at h ⊢
        rw [Res.bind_eq_ok] at h
        obtain ⟨p, hp, h2⟩ := h
        rw [Res.map_eq_ok] at h2
        obtain ⟨ret, hret, rfl⟩ := h2
        rw [Res.bind_eq_ok]
        refine ⟨p, (ih f2 hff).2.1 st kvs p hp, ?_⟩
        rw [Res.map_eq_ok]
        exact ⟨ret, (ih f2 hff).2.2.1 st p.1 p.2 ret hret, rfl⟩
      | none =>
        rw [hm] at h
        dsimp only at h ⊢
        exact h
    · intro st kvs pr h
      match kvs with
      | [] =>
        rw [recoverEntries] at h ⊢
        exact h
      | (k, v) :: rest =>
        rw [recoverEntries] at h ⊢
        by_cases hk : isPlaceholderKey isNum k
        · rw [if_pos hk] at h ⊢
          cases hal : asLink v with
          | some c =>
            rw [hal] at h
            dsimp only at h ⊢
            cases hl : dlookupC st c with
            | none => rw [hl] at h; cases h
            | some b =>
              rw [hl] at h
              dsimp only at h ⊢
              cases hd : dec b with
              | none => rw [hd] at h; cases h
              | some w =>
                rw [hd] at h
                dsimp only at h ⊢
                rw [Res.bind_eq_ok] at h
                obtain ⟨r2, hr2, h3⟩ := h
                rw [Res.map_eq_ok] at h3
                obtain ⟨q, hq, rfl⟩ := h3
                rw [Res.bind_eq_ok]
                refine ⟨r2, (ih f2 hff).1 st w r2 hr2, ?_⟩
                rw [Res.map_eq_ok]
                exact ⟨q, (ih f2 hff).2.1 st rest q hq, rfl⟩
          | none =>
            rw [hal] at h
            dsimp only at h
            cases h
        · rw [if_neg hk] at h ⊢
          rw [Res.bind_eq_ok] at h
          obtain ⟨r2, hr2, h3⟩ := h
          rw [Res.map_eq_ok] at h3
          obtain ⟨q, hq, rfl⟩ := h3
          rw [Res.bind_eq_ok]
          refine ⟨r2, (ih f2 hff).1 st v r2 hr2, ?_⟩
          rw [Res.map_eq_ok]
          exact ⟨q, (ih f2 hff).2.1 st rest q hq, rfl⟩
    · intro st ret rs out h
      match rs with
      | [] =>
        rw [mergeRecovered] at h ⊢
        exact h
      | r :: rs =>
        rw [mergeRecovered] at h ⊢
        cases hm : asMap r with
        | some rkvs =>
          rw [hm] at h
          dsimp only at h ⊢
          rw [Res.bind_eq_ok] at h
          obtain ⟨ret2, hret2, h3⟩ := h
          rw [Res.bind_eq_ok]
          exact ⟨ret2, (ih f2 hff).2.2.2 st ret rkvs ret2 hret2,
            (ih f2 hff).2.2.1 st ret2 rs out h3⟩
        | none =>
          rw [hm] at h
          dsimp only at h
          cases h
    · intro st ret rkvs out h
      match rkvs with
      | [] =>
        rw [mergeOne] at h ⊢
        exact h
      | (k, w) :: rest =>
        rw [mergeOne] at h ⊢
        rw [Res.bind_eq_ok] at h
        obtain ⟨w2, hw2, h3⟩ := h
        rw [Res.bind_eq_ok]
        exact ⟨w2, (ih f2 hff).1 st w w2 hw2,
          (ih f2 hff).2.2.2 st (dinsertV ret k w2) rest out h3⟩

/-- `IPFSStore.get` (contentstore.py lines 240-249): fetch the raw block;
dag-pb returns it verbatim, dag-cbor decodes it and recovers the sharded
tree, any other codec raises `ValueError`. -/
def ipfsGet (f : Nat) (st : IStore) (c : CID) : Res (Bytes ⊕ Value) :=
  match ipfsGetRaw st c with
  | none => .err
  | some b =>
    if c.codec = dagPbCode then .ok (.inl b)
    else if c.codec = dagCborCode then
      match dec b with
      | none => .err
      | some v => (recoverTree dec isNum f st v).map .inr
    else .err

/-- `IPFSStore.put` (contentstore.py lines 290-295): bytes are stored via
`put_raw` with the dag-pb codec; any other value is restructured by
`make_tree_structure`, serialized and stored via `put_raw` with the
dag-cbor codec. -/
def ipfsPut (f : Nat) (st : IStore) (v : Bytes ⊕ Value) : Res (CID × IStore) :=
  match v with
  | .inl b => .ok (ipfsPutRaw hashI st b dagPbCode)
  | .inr w =>
    (makeTree enc hashI pHash L f st w).map
      fun p => ipfsPutRaw hashI p.2 (enc p.1) dagCborCode

lemma makeTree_nonmap (f : Nat) (st : IStore) (v : Value)
    (hv : asMap v = none) :
    makeTree enc hashI pHash L (f + 1) st v = .ok (v, st) := by
  rw [makeTree, hv]

lemma makeTree_single_int (f : Nat) (st : IStore) (k : Key) (n : Int) (hL : 1 ≤ L) :
    makeTree enc hashI pHash L (f + 3) st (.map [(k, .int n)]) =
      .ok (.map [(k, .int n)], st) := by
  show makeTree enc hashI pHash L ((f + 2) + 1) st (.map [(k, .int n)]) =
    .ok (.map [(k, .int n)], st)
  rw [makeTree]
  dsimp only [asMap]
  rw [if_pos (by simpa using hL)]
  show Res.map _ (makeTreeVals enc hashI pHash L ((f + 1) + 1) st [(k, Value.int n)]) = _
  rw [makeTreeVals]
  rw [makeTree_nonmap enc hashI pHash L f st (.int n) rfl]
  dsimp only [Res.bind]
  rw [makeTreeVals]
  rfl

end IpfsStore

/-! ## Typed get / put dispatch (C5, C6) -/

section TypedAccess

variable (hashF : Nat → Bytes → Bytes) (encM : Value → Bytes) (decM : Bytes → Option Value)

/-- `ContentAddressableStore.get` (contentstore.py lines 47-54),
inherited by `MappingCAStore`: raw returns the stored bytes verbatim,
dag-cbor decodes them, any other codec raises `ValueError` (and a decode
failure propagates; both failures and a missing key are `none` here). -/
def mget (s : MStore) (c : CID) : Option (Bytes ⊕ Value) :=
  match mgetRaw s c with
  | none => none
  | some b =>
    if c.codec = rawCode then some (.inl b)
    else if c.codec = dagCborCode then (decM b).map .inr
    else none

/-- `ContentAddressableStore.put` (contentstore.py lines 70-75),
inherited by `MappingCAStore`: bytes go to `put_raw` with the raw codec,
anything else is dag-cbor-encoded and goes to `put_raw` with the
dag-cbor codec. -/
def mput (s : MStore) : Bytes ⊕ Value → CID × MStore
  | .inl b => putRawM hashF s b rawCode
  | .inr w => putRawM hashF s (encM w) dagCborCode

end TypedAccess

/-- C5 counterexample: against the remote backend, `get` of an identifier
whose codec is the raw tag does not return the stored bytes verbatim as
the claim states for every implementation — `IPFSStore.get` dispatches on
dag-pb instead and raises `ValueError` for the raw tag. -/
theorem ipfsGet_raw_codec_fails :
    ipfsGet (fun _ => none) isDigitCh 3 [(cidB, [9])] cidB = .err ∧ cidB.codec = rawCode := by
  constructor
  · rfl
  · rfl

/-- C5 (amended): `ContentAddressableStore.get` (the in-memory backing)
dispatches raw ↦ bytes verbatim, dag-cbor ↦ decoded value, other ↦
failure; `IPFSStore.get` dispatches dag-pb ↦ bytes verbatim, dag-cbor ↦
`recover_tree` of the decoded value, other ↦ failure. -/
theorem get_dispatch (decM dec : Bytes → Option Value) (isNum : Char → Bool) :
    (∀ (s : MStore) (c : CID) (b : Bytes), mgetRaw s c = some b →
      c.codec = rawCode → mget decM s c = some (.inl b)) ∧
    (∀ (s : MStore) (c : CID) (b : Bytes) (v : Value), mgetRaw s c = some b →
      c.codec = dagCborCode → decM b = some v → mget decM s c = some (.inr v)) ∧
    (∀ (s : MStore) (c : CID) (b : Bytes), mgetRaw s c = some b →
      c.codec ≠ rawCode → c.codec ≠ dagCborCode → mget decM s c = none) ∧
    (∀ (f : Nat) (st : IStore) (c : CID) (b : Bytes), dlookupC st c = some b →
      c.codec = dagPbCode → ipfsGet dec isNum f st c = .ok (.inl b)) ∧
    (∀ (f : Nat) (st : IStore) (c : CID) (b : Bytes) (v : Value), dlookupC st c = some b →
      c.codec = dagCborCode → dec b = some v →
      ipfsGet dec isNum f st c = (recoverTree dec isNum f st v).map .inr) ∧
    (∀ (f : Nat) (st : IStore) (c : CID) (b : Bytes), dlookupC st c = some b →
      c.codec ≠ dagPbCode → c.codec ≠ dagCborCode → ipfsGet dec isNum f st c = .err) := by
  refine ⟨?_, ?_, ?_, ?_, ?_, ?_⟩
  · intro s c b hb hc
    rw [mget, hb]
    dsimp only
    rw [if_pos hc]
  · intro s c b v hb hc hv
    have hne : c.codec ≠ rawCode := by rw [hc]; decide
    rw [mget, hb]
    dsimp only
    rw [if_neg hne, if_pos hc, hv]
    rfl
  · intro s c b hb h1 h2
    rw [mget, hb]
    dsimp only
    rw [if_neg h1, if_neg h2]
  · intro f st c b hb hc
    rw [ipfsGet, ipfsGetRaw, hb]
    dsimp only
    rw [if_pos hc]
  · intro f st c b v hb hc hv
    have hne : c.codec ≠ dagPbCode := by rw [hc]; decide
    rw [ipfsGet, ipfsGetRaw, hb]
    dsimp only
    rw [if_neg hne, if_pos hc, hv]
  · intro f st c b hb h1 h2
    rw [ipfsGet, ipfsGetRaw, hb]
    dsimp only
    rw [if_neg h1, if_neg h2]

/-- C5 witness: concrete dispatches on a two-block store. -/
theorem get_dispatch_witness :
    mgetRaw (MStore.mk [(cidB, [9])] sha256Code 0) cidB = some [9] ∧
    cidB.codec = rawCode ∧
    mget (fun _ => none) (MStore.mk [(cidB, [9])] sha256Code 0) cidB = some (.inl [9]) := by
  have h := (get_dispatch (fun _ => none) (fun _ => none) isDigitCh).1
    (MStore.mk [(cidB, [9])] sha256Code 0) cidB [9] rfl rfl
  exact ⟨rfl, rfl, h⟩

/-- C6 counterexample: against the remote backend, `put` of a byte string
does not use the raw codec tag as the claim states for every
implementation — `IPFSStore.put` stores bytes via `put_raw` with the
dag-pb codec. -/
theorem ipfsPut_bytes_not_raw :
    ipfsPut (fun _ => []) (fun b => b) (fun _ => 0) 10 1 [] (Sum.inl [7]) =
      .ok (⟨1, 0, dagPbCode, sha256Code, [7]⟩, [(⟨1, 0, dagPbCode, sha256Code, [7]⟩, [7])]) ∧
    dagPbCode ≠ rawCode := by
  exact ⟨rfl, by decide⟩

/-- C6 (amended): `ContentAddressableStore.put` (the in-memory backing)
stores bytes via `put_raw` with the raw tag and any other value
serialized with the dag-cbor tag; `IPFSStore.put` stores bytes via
`put_raw` with the dag-pb tag and any other value first restructured by
`make_tree_structure`, then serialized and stored with the dag-cbor
tag. -/
theorem put_dispatch (hashF : Nat → Bytes → Bytes) (encM enc : Value → Bytes)
    (hashI : Bytes → Bytes) (pHash : List Key → Int) (L : Nat) :
    (∀ (s : MStore) (b : Bytes), mput hashF encM s (.inl b) = putRawM hashF s b rawCode ∧
      (putRawM hashF s b rawCode).1.codec = rawCode) ∧
    (∀ (s : MStore) (w : Value), mput hashF encM s (.inr w) =
      putRawM hashF s (encM w) dagCborCode ∧
      (putRawM hashF s (encM w) dagCborCode).1.codec = dagCborCode) ∧
    (∀ (f : Nat) (st : IStore) (b : Bytes),
      ipfsPut enc hashI pHash L f st (.inl b) = .ok (ipfsPutRaw hashI st b dagPbCode) ∧
      (ipfsPutRaw hashI st b dagPbCode).1.codec = dagPbCode) ∧
    (∀ (f : Nat) (st : IStore) (w : Value) (p : Value × IStore),
      makeTree enc hashI pHash L f st w = .ok p →
      ipfsPut enc hashI pHash L f st (.inr w) =
        .ok (ipfsPutRaw hashI p.2 (enc p.1) dagCborCode) ∧
      (ipfsPutRaw hashI p.2 (enc p.1) dagCborCode).1.codec = dagCborCode) := by
  refine ⟨?_, ?_, ?_, ?_⟩
  · intro s b
    exact ⟨rfl, rfl⟩
  · intro s w
    exact ⟨rfl, rfl⟩
  · intro f st b
    exact ⟨rfl, rfl⟩
  · intro f st w p h
    constructor
    · rw [ipfsPut, h]
      rfl
    · rfl

/-- C6 witness: concrete dispatches, including the sharding path of the
remote put on a small (unsharded) map. -/
theorem put_dispatch_witness :
    makeTree (fun _ => []) (fun b => b) (fun _ => 0) 10 3 [] (.map [(['a'], .int 1)]) =
      .ok ((.map [(['a'], .int 1)], []) : Value × IStore) ∧
    (mput (fun _ b => b) (fun _ => []) (MStore.mk [] sha256Code 0) (.inl [7]) =
      putRawM (fun _ b => b) (MStore.mk [] sha256Code 0) [7] rawCode) ∧
    ipfsPut (fun _ => []) (fun b => b) (fun _ => 0) 10 3 [] (Sum.inr (.map [(['a'], .int 1)])) =
      .ok (ipfsPutRaw (fun b => b) ([] : IStore) ((fun (_ : Value) => ([] : Bytes)) (.map [(['a'], .int 1)])) dagCborCode) := by
  have hm : makeTree (fun _ => []) (fun b => b) (fun _ => 0) 10 3 [] (.map [(['a'], .int 1)]) =
      .ok ((.map [(['a'], .int 1)], []) : Value × IStore) :=
    makeTree_single_int (fun _ => []) (fun b => b) (fun _ => 0) 10 0 [] ['a'] 1 (by omega)
  have h4 := (put_dispatch (fun _ b => b) (fun _ => []) (fun _ => []) (fun b => b)
    (fun _ => 0) 10).2.2.2 3 [] (.map [(['a'], .int 1)])
    ((.map [(['a'], .int 1)], []) : Value × IStore) hm
  exact ⟨hm, ((put_dispatch (fun _ b => b) (fun _ => []) (fun _ => []) (fun b => b)
    (fun _ => 0) 10).1 (MStore.mk [] sha256Code 0) [7]).1, h4.1⟩

/-! ## Placeholder keys: decimal representations and classification -/

/-- Match-on-err projection (usable with `decide` where `Res α` carries
no decidable equality). -/
def Res.isErr : Res α → Bool
  | .err => true
  | .ok _ => false
  | .spin => false

lemma digitChar_isDigit : ∀ n < 10, isDigitCh (digitChar n) = true := by decide

lemma digitChar_toNat : ∀ n < 10, (digitChar n).toNat = 48 + n := by decide

lemma natReprGo_digits :
    ∀ f n, n < f → natReprGo f n ≠ [] ∧ (natReprGo f n).all isDigitCh = true := by
  intro f
  induction f with
  | zero => intro n h; omega
  | succ f ih =>
    intro n hn
    rw [natReprGo]
    by_cases h10 : n < 10
    · rw [if_pos h10]
      exact ⟨by simp, by simpa using digitChar_isDigit n h10⟩
    · rw [if_neg h10]
      have hdiv : n / 10 < f := by
        have h1 : n / 10 < n := Nat.div_lt_self (by omega) (by omega)
        omega
      obtain ⟨hne, hall⟩ := ih (n / 10) hdiv
      refine ⟨by simp, ?_⟩
      rw [List.all_append]
      simp only [hall, Bool.true_and, List.all_cons, List.all_nil, Bool.and_true]
      exact digitChar_isDigit (n % 10) (Nat.mod_lt _ (by omega))

lemma natRepr_digits (n : Nat) : natRepr n ≠ [] ∧ (natRepr n).all isDigitCh = true :=
  natReprGo_digits (n + 1) n (by omega)

/-- The decimal parse used to show the printer is injective. -/
def parseNat (l : List Char) : Nat := l.foldl (fun a c => a * 10 + (c.toNat - 48)) 0

lemma parseNat_append_digit (l : List Char) (c : Char) :
    parseNat (l ++ [c]) = parseNat l * 10 + (c.toNat - 48) := by
  unfold parseNat
  rw [List.foldl_append]
  rfl

lemma parseNat_go (base : Nat) (l : List Char) :
    l.foldl (fun a c => a * 10 + (c.toNat - 48)) base =
      base * 10 ^ l.length + parseNat l := by
  induction l generalizing base with
  | nil => simp [parseNat]
  | cons c r ih =>
    unfold parseNat
    simp only [List.foldl_cons, List.length_cons]
    rw [ih, ih]
    ring

lemma parseNat_natReprGo : ∀ f n, n < f → parseNat (natReprGo f n) = n := by
  intro f
  induction f with
  | zero => intro n h; omega
  | succ f ih =>
    intro n hn
    rw [natReprGo]
    by_cases h10 : n < 10
    · rw [if_pos h10]
      unfold parseNat
      simp only [List.foldl_cons, List.foldl_nil]
      rw [digitChar_toNat n h10]
      omega
    · rw [if_neg h10]
      have hdiv : n / 10 < f := by
        have h1 : n / 10 < n := Nat.div_lt_self (by omega) (by omega)
        omega
      rw [parseNat_append_digit, ih (n / 10) hdiv,
        digitChar_toNat (n % 10) (Nat.mod_lt _ (by omega))]
      omega

lemma natRepr_inj {a b : Nat} (h : natRepr a = natRepr b) : a = b := by
  have ha : parseNat (natRepr a) = a := by
    rw [natRepr]; exact parseNat_natReprGo _ _ (by omega)
  have hb : parseNat (natRepr b) = b := by
    rw [natRepr]; exact parseNat_natReprGo _ _ (by omega)
  rw [← ha, ← hb, h]

lemma natRepr_head_digit (n : Nat) :
    ∃ c rest, natRepr n = c :: rest ∧ isDigitCh c = true ∧ rest.all isDigitCh = true := by
  obtain ⟨hne, hall⟩ := natRepr_digits n
  match hrepr : natRepr n with
  | [] => exact absurd hrepr hne
  | c :: rest =>
    rw [hrepr] at hall
    simp only [List.all_cons, Bool.and_eq_true] at hall
    exact ⟨c, rest, rfl, hall.1, hall.2⟩

lemma dash_not_digit : isDigitCh '-' = false := by decide

lemma intRepr_inj {a b : Int} (h : intRepr a = intRepr b) : a = b := by
  unfold intRepr at h
  by_cases ha : a < 0 <;> by_cases hb : b < 0
  · rw [if_pos ha, if_pos hb] at h
    injection h with h1 h2
    have h3 := natRepr_inj h2
    omega
  · rw [if_pos ha, if_neg hb] at h
    obtain ⟨c, rest, hr, hc, _⟩ := natRepr_head_digit b.toNat
    rw [hr] at h
    injection h with h1 h2
    rw [← h1, dash_not_digit] at hc
    cases hc
  · rw [if_neg ha, if_pos hb] at h
    obtain ⟨c, rest, hr, hc, _⟩ := natRepr_head_digit a.toNat
    rw [hr] at h
    injection h with h1 h2
    rw [h1, dash_not_digit] at hc
    cases hc
  · rw [if_neg ha, if_neg hb] at h
    have h2 := natRepr_inj h
    omega

lemma natRepr_ge10_shape {n : Nat} (hn : 10 ≤ n) :
    ∃ c rest, natRepr n = c :: rest ∧ rest ≠ [] ∧ rest.all isDigitCh = true := by
  rw [natRepr, natReprGo, if_neg (by omega)]
  have hdiv : n / 10 < n := Nat.div_lt_self (by omega) (by omega)
  obtain ⟨hne, hall⟩ := natReprGo_digits n (n / 10) (by omega)
  match hrepr : natReprGo n (n / 10) with
  | [] => exact absurd hrepr hne
  | c :: rest =>
    rw [hrepr] at hall
    simp only [List.all_cons, Bool.and_eq_true] at hall
    refine ⟨c, rest ++ [digitChar (n % 10)], by simp, by simp, ?_⟩
    rw [List.all_append]
    simp only [hall.2, Bool.true_and, List.all_cons, List.all_nil, Bool.and_true]
    exact digitChar_isDigit (n % 10) (Nat.mod_lt _ (by omega))

lemma all_isNum_of_all_isDigit {isNum : Char → Bool}
    (hnum : ∀ c, isDigitCh c = true → isNum c = true) {l : List Char}
    (h : l.all isDigitCh = true) : l.all isNum = true := by
  rw [List.all_eq_true] at h ⊢
  exact fun c hc => hnum c (h c hc)

/-- The placeholder test spelled out: a key matches exactly when it has
length at least 2, starts with `'/'` and its tail from index 2 on is
nonempty and all-numeric (the source test of line 228, with `isnumeric`
the oracle `isNum`). -/
lemma isPlaceholderKey_iff (isNum : Char → Bool) : ∀ k : Key,
    isPlaceholderKey isNum k = true ↔
      ∃ b rest, k = '/' :: b :: rest ∧ rest ≠ [] ∧ rest.all isNum = true := by
  intro k
  match k with
  | [] =>
    have h0 : isPlaceholderKey isNum [] = false := rfl
    rw [h0]
    simp
  | [c] =>
    have h0 : isPlaceholderKey isNum [c] = false := rfl
    rw [h0]
    simp
  | c :: b :: rest =>
    have h0 : isPlaceholderKey isNum (c :: b :: rest) =
        (c == '/' && !rest.isEmpty && rest.all isNum) := rfl
    rw [h0]
    simp only [Bool.and_eq_true, beq_iff_eq, Bool.not_eq_true']
    constructor
    · rintro ⟨⟨rfl, hne⟩, hall⟩
      refine ⟨b, rest, rfl, ?_, hall⟩
      intro hcon
      rw [hcon] at hne
      simp at hne
    · rintro ⟨b2, r2, heq, hne, hall⟩
      injection heq with h1 h2
      injection h2 with h3 h4
      subst h1
      subst h4
      refine ⟨⟨rfl, ?_⟩, hall⟩
      cases rest with
      | nil => exact absurd rfl hne
      | cons x xs => rfl

lemma genKey_marker (isNum : Char → Bool)
    (hnum : ∀ c, isDigitCh c = true → isNum c = true)
    (pHash : List Key → Int) (g : List Key)
    (hrange : pHash g < 0 ∨ 10 ≤ pHash g) :
    isPlaceholderKey isNum (genKey pHash g) = true := by
  rw [genKey, intRepr]
  rcases hrange with hneg | hbig
  · rw [if_pos hneg]
    obtain ⟨hne, hall⟩ := natRepr_digits (pHash g).natAbs
    match hrepr : natRepr (pHash g).natAbs with
    | [] => exact absurd hrepr hne
    | c :: rest =>
      rw [hrepr] at hall
      rw [isPlaceholderKey]
      have hall2 := all_isNum_of_all_isDigit hnum hall
      simp only [List.all_cons, Bool.and_eq_true] at hall2
      simp [hall2.1, hall2.2]
  · rw [if_neg (by omega)]
    obtain ⟨c, rest, hr, hne, hall⟩ := natRepr_ge10_shape (show 10 ≤ (pHash g).toNat by omega)
    rw [hr, isPlaceholderKey]
    have hall2 := all_isNum_of_all_isDigit hnum hall
    simp [hne, hall2]

lemma genKey_inj (pHash : List Key → Int)
    (hpinj : ∀ g1 g2, pHash g1 = pHash g2 → g1 = g2)
    {g1 g2 : List Key} (h : genKey pHash g1 = genKey pHash g2) : g1 = g2 := by
  rw [genKey, genKey] at h
  exact hpinj g1 g2 (intRepr_inj (by simpa using h))

/-! ## Placeholder-free values are fixed points of recovery -/

mutual

/-- No key anywhere in the map structure (through map values; lists are
never entered by `recover_tree`) matches the placeholder pattern (under
the `isnumeric` oracle `isNum`). -/
def NoMarkerDeep (isNum : Char → Bool) : Value → Bool
  | .map kvs => nmKV isNum kvs
  | .int _ => true
  | .str _ => true
  | .link _ => true
  | .list _ => true
termination_by structural v => v

/-- Entry-wise no-marker check. -/
def nmKV (isNum : Char → Bool) : List (Key × Value) → Bool
  | [] => true
  | (k, v) :: r => !isPlaceholderKey isNum k && NoMarkerDeep isNum v && nmKV isNum r
termination_by structural l => l

end

lemma recover_id_aux (dec : Bytes → Option Value) (isNum : Char → Bool) : ∀ n : Nat,
    (∀ v : Value, sizeOf v ≤ n → NoMarkerDeep isNum v = true → ∀ st : IStore,
      ∃ f0, ∀ f, f0 ≤ f → recoverTree dec isNum f st v = .ok v) ∧
    (∀ kvs : List (Key × Value), sizeOf kvs ≤ n → nmKV isNum kvs = true → ∀ st : IStore,
      ∃ f0, ∀ f, f0 ≤ f → recoverEntries dec isNum f st kvs = .ok (kvs, [])) := by
  intro n
  induction n with
  | zero =>
    constructor
    · intro v hsz
      exact absurd hsz (by cases v <;> simp)
    · intro kvs hsz
      exact absurd hsz (by cases kvs <;> simp)
  | succ n ih =>
    constructor
    · intro v hsz hnm st
      cases v with
      | map kvs =>
        rw [NoMarkerDeep] at hnm
        have hkvs : sizeOf kvs ≤ n := by
          have : sizeOf (Value.map kvs) = 1 + sizeOf kvs := by simp
          omega
        obtain ⟨f0, hf0⟩ := (ih.2) kvs hkvs hnm st
        refine ⟨f0 + 2, ?_⟩
        intro f hf
        match f, hf with
        | f2 + 1, hf =>
        rw [recoverTree]
        dsimp only [asMap]
        rw [hf0 f2 (by omega)]
        dsimp only [Res.bind]
        match f2, (show f0 + 1 ≤ f2 by omega) with
        | f3 + 1, _ =>
        rw [mergeRecovered]
        rfl
      | int nn => exact ⟨1, fun f hf => by
          match f, hf with
          | f2 + 1, _ => rw [recoverTree]; rfl⟩
      | str s => exact ⟨1, fun f hf => by
          match f, hf with
          | f2 + 1, _ => rw [recoverTree]; rfl⟩
      | link c => exact ⟨1, fun f hf => by
          match f, hf with
          | f2 + 1, _ => rw [recoverTree]; rfl⟩
      | list vs => exact ⟨1, fun f hf => by
          match f, hf with
          | f2 + 1, _ => rw [recoverTree]; rfl⟩
    · intro kvs hsz hnm st
      match kvs with
      | [] =>
        refine ⟨1, ?_⟩
        intro f hf
        match f, hf with
        | f2 + 1, _ => rw [recoverEntries]
      | (k, v) :: rest =>
        rw [nmKV] at hnm
        simp only [Bool.and_eq_true, Bool.not_eq_eq_eq_not, Bool.not_true] at hnm
        obtain ⟨⟨hk, hv⟩, hrest⟩ := hnm
        have hc := List.cons.sizeOf_spec (k, v) rest
        have hp := Prod.mk.sizeOf_spec k v
        have hszv : sizeOf v ≤ n := by omega
        have hszr : sizeOf rest ≤ n := by
          have h2 : 0 < sizeOf v := by cases v <;> simp
          omega
        obtain ⟨fv, hfv⟩ := (ih.1) v hszv hv st
        obtain ⟨fr, hfr⟩ := (ih.2) rest hszr hrest st
        refine ⟨fv + fr + 1, ?_⟩
        intro f hf
        match f, hf with
        | f2 + 1, hf =>
        rw [recoverEntries]
        rw [if_neg (by rw [hk]; exact fun h => Bool.noConfusion h)]
        rw [hfv f2 (by omega), hfr f2 (by omega)]
        rfl

/-- Placeholder-free values recover to themselves in any store. -/
lemma recoverTree_id (dec : Bytes → Option Value) (isNum : Char → Bool) (v : Value)
    (hv : NoMarkerDeep isNum v = true) (st : IStore) :
    ∃ f0, ∀ f, f0 ≤ f → recoverTree dec isNum f st v = .ok v :=
  (recover_id_aux dec isNum (sizeOf v)).1 v le_rfl hv st

/-- C8 counterexample: the ordinary data key `"/12"` of an input map
(whose value is a plain integer, so the map was never sharded) is treated
as a placeholder by `recover_tree`, which crashes trying to read a link
out of its value — placeholder keys are not a reserved class.  The
`isnumeric` oracle is instantiated by the ASCII digit test, with which
Python's `str.isnumeric` agrees on every (ASCII) character of this
input. -/
theorem recoverTree_marker_data_key :
    recoverTree (fun _ => none) isDigitCh 3 []
      (.map [(['/', '1', '2'], .int 5)]) = .err := by
  have h : (recoverTree (fun _ => none) isDigitCh 3 []
      (.map [(['/', '1', '2'], .int 5)])).isErr = true := by decide
  cases hr : recoverTree (fun _ => none) isDigitCh 3 [] (.map [(['/', '1', '2'], .int 5)]) with
  | ok a => rw [hr] at h; simp [Res.isErr] at h
  | err => rfl
  | spin => rw [hr] at h; simp [Res.isErr] at h

/-- C8 (amended): placeholder classification is purely syntactic — a key
is treated as a placeholder exactly when `len(k) > 1`, `k[0] = '/'` and
`k[2:]` is nonempty and numeric, with `str.isnumeric` the external
character oracle `isNum` (the character at index 1 is never inspected).
Every key the sharding engine generates matches the pattern whenever the
group hash is negative or at least 10 (given only that ASCII digits are
numeric), and recovery is the identity on values free of
pattern-matching keys; but the class is not reserved: ordinary data keys
such as `"/12"` (or even `"/x1"`) also match and are treated as
placeholders, while `"/5"` escapes the pattern (concrete conjuncts under
the ASCII instantiation, on which `isnumeric` agrees). -/
theorem placeholder_classification (dec : Bytes → Option Value) (isNum : Char → Bool)
    (hnum : ∀ c, isDigitCh c = true → isNum c = true) (pHash : List Key → Int) :
    (∀ k : Key, isPlaceholderKey isNum k = true ↔
      ∃ b rest, k = '/' :: b :: rest ∧ rest ≠ [] ∧ rest.all isNum = true) ∧
    (∀ g : List Key, pHash g < 0 ∨ 10 ≤ pHash g →
      isPlaceholderKey isNum (genKey pHash g) = true) ∧
    (∀ v : Value, NoMarkerDeep isNum v = true → ∀ st : IStore,
      ∃ f0, ∀ f, f0 ≤ f → recoverTree dec isNum f st v = .ok v) ∧
    isPlaceholderKey isDigitCh ['/', '1', '2'] = true ∧
    isPlaceholderKey isDigitCh ['/', 'x', '1'] = true ∧
    isPlaceholderKey isDigitCh ['/', '5'] = false :=
  ⟨isPlaceholderKey_iff isNum, fun g h => genKey_marker isNum hnum pHash g h,
   recoverTree_id dec isNum, by decide, by decide, by decide⟩

/-- C8 witness: under the ASCII instantiation of the `isnumeric` oracle,
a concrete generated key is classified as a placeholder and a concrete
marker-free map is a fixed point of recovery. -/
theorem placeholder_classification_witness :
    (∀ c, isDigitCh c = true → isDigitCh c = true) ∧
    ((fun (_ : List Key) => (-11 : Int)) [] < 0 ∨
      10 ≤ (fun (_ : List Key) => (-11 : Int)) []) ∧
    isPlaceholderKey isDigitCh (genKey (fun _ => (-11 : Int)) []) = true ∧
    NoMarkerDeep isDigitCh (.map [(['a'], .int 1)]) = true ∧
    (∃ f0, ∀ f, f0 ≤ f → recoverTree (fun _ => none) isDigitCh f []
      (.map [(['a'], .int 1)]) = .ok (.map [(['a'], .int 1)])) := by
  refine ⟨fun c h => h, Or.inl (by norm_num), ?_, by decide, ?_⟩
  · exact (placeholder_classification (fun _ => none) isDigitCh (fun c h => h)
      (fun _ => (-11 : Int))).2.1 [] (Or.inl (by norm_num))
  · exact (placeholder_classification (fun _ => none) isDigitCh (fun c h => h)
      (fun _ => (-11 : Int))).2.2.1 (.map [(['a'], .int 1)]) (by decide) []

/-! ## Infrastructure for the shard/recover round trip -/

/-- Store extension: every lookup that succeeds keeps succeeding with the
same block. -/
def StExt (st st2 : IStore) : Prop :=
  ∀ c b, dlookupC st c = some b → dlookupC st2 c = some b

/-- Every stored block's identifier carries the digest of its bytes. -/
def WellStored (hashI : Bytes → Bytes) (st : IStore) : Prop :=
  ∀ p ∈ st, p.1.digest = hashI p.2

/-- `w` recovers to `r` from any extension of `st`. -/
def RecTo (dec : Bytes → Option Value) (isNum : Char → Bool) (st : IStore) (w r : Value) : Prop :=
  ∀ st2, StExt st st2 → ∃ g0, ∀ g, g0 ≤ g → recoverTree dec isNum g st2 w = .ok r

/-- A value that, if it is a map, has at most `L` entries. -/
def SmallNode (L : Nat) (v : Value) : Prop :=
  ∀ l, asMap v = some l → l.length ≤ L

/-- Every block present in `st2` was already in `st` or is the encoding
of a node with at most `L` entries. -/
def NewNodes (enc : Value → Bytes) (L : Nat) (st st2 : IStore) : Prop :=
  ∀ c b, dlookupC st2 c = some b → dlookupC st c = some b ∨
    ∃ w, b = enc w ∧ SmallNode L w

lemma stext_refl (st : IStore) : StExt st st := fun _ _ h => h

lemma stext_trans {s1 s2 s3 : IStore} (h1 : StExt s1 s2) (h2 : StExt s2 s3) :
    StExt s1 s3 := fun c b h => h2 c b (h1 c b h)

lemma newNodes_refl (enc : Value → Bytes) (L : Nat) (st : IStore) :
    NewNodes enc L st st := fun _ _ h => Or.inl h

lemma newNodes_trans {enc : Value → Bytes} {L : Nat} {s1 s2 s3 : IStore}
    (h1 : NewNodes enc L s1 s2) (h2 : NewNodes enc L s2 s3) :
    NewNodes enc L s1 s3 := by
  intro c b h
  rcases h2 c b h with h3 | h3
  · exact h1 c b h3
  · exact Or.inr h3

lemma recTo_mono {dec : Bytes → Option Value} {isNum : Char → Bool}
    {st st2 : IStore} {w r : Value}
    (h : RecTo dec isNum st w r) (hext : StExt st st2) : RecTo dec isNum st2 w r :=
  fun st3 hext2 => h st3 (stext_trans hext hext2)

lemma dlookupC_mem {st : IStore} {c : CID} {b : Bytes}
    (h : dlookupC st c = some b) : (c, b) ∈ st := by
  induction st with
  | nil => cases h
  | cons p r ih =>
    obtain ⟨k, w⟩ := p
    rw [dlookupC] at h
    by_cases hk : k = c
    · rw [if_pos hk] at h
      obtain rfl : w = b := by injection h
      subst hk
      exact List.mem_cons_self _ _
    · rw [if_neg hk] at h
      exact List.mem_cons_of_mem _ (ih h)

lemma dinsertC_mem {st : IStore} {c : CID} {b : Bytes} {p : CID × Bytes}
    (h : p ∈ dinsertC st c b) : p ∈ st ∨ p = (c, b) := by
  induction st with
  | nil =>
    rw [dinsertC] at h
    rcases List.mem_singleton.1 h with rfl
    exact Or.inr rfl
  | cons q r ih =>
    obtain ⟨k, w⟩ := q
    rw [dinsertC] at h
    by_cases hk : k = c
    · rw [if_pos hk] at h
      rcases List.mem_cons.1 h with rfl | h2
      · exact Or.inr rfl
      · exact Or.inl (List.mem_cons_of_mem _ h2)
    · rw [if_neg hk] at h
      rcases List.mem_cons.1 h with rfl | h2
      · exact Or.inl (List.mem_cons_self _ _)
      · rcases ih h2 with h3 | h3
        · exact Or.inl (List.mem_cons_of_mem _ h3)
        · exact Or.inr h3

/-- Effect of one `put_raw` on a well-formed store: lookups are
preserved (overwrites rewrite an identical block, as the digest pins the
content under an injective hash), the store stays well-formed, and the
new block is retrievable. -/
lemma ipfsPutRaw_ext {hashI : Bytes → Bytes} (hinj : Function.Injective hashI)
    {st : IStore} (hws : WellStored hashI st) (b : Bytes) (codec : Nat) :
    StExt st (ipfsPutRaw hashI st b codec).2 ∧
    WellStored hashI (ipfsPutRaw hashI st b codec).2 ∧
    dlookupC (ipfsPutRaw hashI st b codec).2 (ipfsPutRaw hashI st b codec).1 = some b ∧
    (∀ c0 b0, dlookupC (ipfsPutRaw hashI st b codec).2 c0 = some b0 →
      dlookupC st c0 = some b0 ∨ b0 = b) := by
  refine ⟨?_, ?_, ?_, ?_⟩
  · intro c0 b0 h
    rw [ipfsPutRaw, dlookupC_dinsertC]
    by_cases hc : c0 = mkCidI hashI codec b
    · rw [if_pos hc]
      have hmem := dlookupC_mem h
      have hd := hws _ hmem
      rw [hc] at hd
      have : hashI b0 = hashI b := by
        rw [← hd]
        rfl
      rw [hinj this]
    · rw [if_neg hc]
      exact h
  · intro p hp
    rcases dinsertC_mem hp with h2 | h2
    · exact hws p h2
    · rw [h2]
      rfl
  · rw [ipfsPutRaw, dlookupC_dinsertC, if_pos rfl]
  · intro c0 b0 h
    rw [ipfsPutRaw, dlookupC_dinsertC] at h
    by_cases hc : c0 = mkCidI hashI codec b
    · rw [if_pos hc] at h
      exact Or.inr (by injection h.symm)
    · rw [if_neg hc] at h
      exact Or.inl h

/-! ### Chunking lemmas -/

lemma chunkListGo_flatten (L : Nat) :
    ∀ f (l : List α), l.length < f → (chunkListGo L f l).flatten = l := by
  intro f
  induction f with
  | zero => intro l h; omega
  | succ f ih =>
    intro l hl
    match l with
    | [] => rw [chunkListGo]; rfl
    | a :: rest =>
      rw [chunkListGo]
      simp only [List.flatten_cons]
      rw [ih (rest.drop (L - 1)) (by simp at hl ⊢; omega)]
      simp [List.take_append_drop]

lemma chunkListGo_mem {L : Nat} :
    ∀ {f : Nat} {l c : List α}, c ∈ chunkListGo L f l → c ≠ [] ∧ c.length ≤ L ∨ c.length ≤ 1 := by
  intro f
  induction f with
  | zero => intro l c h; rw [chunkListGo] at h; cases h
  | succ f ih =>
    intro l c h
    match l with
    | [] => rw [chunkListGo] at h; cases h
    | a :: rest =>
      rw [chunkListGo] at h
      rcases List.mem_cons.1 h with rfl | h2
      · by_cases hL : 1 ≤ L
        · left
          refine ⟨by simp, ?_⟩
          simp only [List.length_cons]
          have := List.length_take_le (L - 1) rest
          omega
        · right
          simp only [List.length_cons]
          have : L - 1 = 0 := by omega
          rw [this]
          simp
      · exact ih h2

lemma chunkListGo_mem_strong {L : Nat} (hL : 1 ≤ L) :
    ∀ {f : Nat} {l c : List α}, c ∈ chunkListGo L f l → c ≠ [] ∧ c.length ≤ L := by
  intro f
  induction f with
  | zero => intro l c h; rw [chunkListGo] at h; cases h
  | succ f ih =>
    intro l c h
    match l with
    | [] => rw [chunkListGo] at h; cases h
    | a :: rest =>
      rw [chunkListGo] at h
      rcases List.mem_cons.1 h with rfl | h2
      · refine ⟨by simp, ?_⟩
        simp only [List.length_cons]
        have := List.length_take_le (L - 1) rest
        omega
      · exact ih h2

lemma chunkListGo_count {L : Nat} (hL : 1 ≤ L) :
    ∀ f (l : List α), l.length < f →
      (chunkListGo L f l).length ≤ l.length ∧
      L * (chunkListGo L f l).length ≤ l.length + (L - 1) := by
  intro f
  induction f with
  | zero => intro l h; omega
  | succ f ih =>
    intro l hl
    match l with
    | [] =>
      rw [chunkListGo]
      simp
    | a :: rest =>
      rw [chunkListGo]
      simp only [List.length_cons]
      by_cases hr : rest.length < L - 1
      · have hnil : rest.drop (L - 1) = [] := by
          apply List.drop_eq_nil_of_le
          omega
        rw [hnil]
        have hf : 1 ≤ f := by
          simp only [List.length_cons] at hl
          omega
        match f, hf with
        | f2 + 1, _ =>
        rw [chunkListGo]
        simp only [List.length_nil, List.length_cons]
        constructor
        · omega
        · rw [show L * (0 + 1) = L from by ring]
          omega
      · have hdrop : (rest.drop (L - 1)).length < f := by
          simp only [List.length_drop]
          simp only [List.length_cons] at hl
          omega
        obtain ⟨h1, h2⟩ := ih (rest.drop (L - 1)) hdrop
        simp only [List.length_drop] at h1 h2
        constructor
        · omega
        · rw [show L * ((chunkListGo L f (rest.drop (L - 1))).length + 1) =
              L * (chunkListGo L f (rest.drop (L - 1))).length + L from by ring]
          omega

lemma chunkList_count_lt {L : Nat} (hL : 2 ≤ L) {l : List α} (hlen : L < l.length) :
    (chunkList L l).length < l.length := by
  have h := (chunkListGo_count (show 1 ≤ L by omega) (l.length + 1) l (by omega)).2
  rw [chunkList]
  by_contra hcon
  push_neg at hcon
  have h2 : L * l.length ≤ L * (chunkListGo L (l.length + 1) l).length :=
    Nat.mul_le_mul_left L hcon
  have h3 : 2 * l.length ≤ L * l.length := Nat.mul_le_mul_right _ hL
  omega

lemma chunkListGo_map (L : Nat) (g : α → β) :
    ∀ f (l : List α), chunkListGo L f (l.map g) = (chunkListGo L f l).map (List.map g) := by
  intro f
  induction f with
  | zero => intro l; rw [chunkListGo, chunkListGo]; rfl
  | succ f ih =>
    intro l
    match l with
    | [] => rw [List.map_nil, chunkListGo, chunkListGo]; rfl
    | a :: rest =>
      rw [List.map_cons, chunkListGo, chunkListGo]
      simp only [List.map_cons, List.map_take, List.map_drop]
      rw [← ih]
      simp

lemma chunkList_map (L : Nat) (g : α → β) (l : List α) :
    chunkList L (l.map g) = (chunkList L l).map (List.map g) := by
  rw [chunkList, chunkList, List.length_map]
  exact chunkListGo_map L g (l.length + 1) l

/-! ### Association-list lemmas for string-keyed maps -/

lemma dlookup_eq_some_of_mem {kvs : List (Key × Value)} {k : Key} {v : Value}
    (hnd : (kvs.map Prod.fst).Nodup) (hmem : (k, v) ∈ kvs) :
    dlookup kvs k = some v := by
  induction kvs with
  | nil => cases hmem
  | cons p r ih =>
    obtain ⟨k0, v0⟩ := p
    simp only [List.map_cons, List.nodup_cons] at hnd
    rcases List.mem_cons.1 hmem with heq | h2
    · obtain ⟨rfl, rfl⟩ : k0 = k ∧ v0 = v := by
        constructor
        · exact (congrArg Prod.fst heq).symm
        · exact (congrArg Prod.snd heq).symm
      rw [dlookup, if_pos rfl]
    · rw [dlookup]
      by_cases hk : k0 = k
      · exfalso
        apply hnd.1
        rw [hk]
        exact List.mem_map_of_mem Prod.fst h2
      · rw [if_neg hk]
        exact ih hnd.2 h2

lemma dinsertV_fresh {ret : List (Key × Value)} {k : Key} {v : Value}
    (hfresh : ∀ p ∈ ret, p.1 ≠ k) :
    dinsertV ret k v = ret ++ [(k, v)] := by
  induction ret with
  | nil => rfl
  | cons p r ih =>
    obtain ⟨k0, v0⟩ := p
    rw [dinsertV]
    rw [if_neg (hfresh (k0, v0) (List.mem_cons_self _ _))]
    rw [ih (fun p hp => hfresh p (List.mem_cons_of_mem _ hp))]
    rfl

/-! ## The shard/recover round trip -/

mutual

/-- Round-trippable values: every map reachable through map values has
pairwise-distinct keys, none matching the placeholder pattern, and
round-trippable values.  (Lists are opaque to both `make_tree_structure`
and `recover_tree`, so their contents are unconstrained.) -/
def GoodVal (isNum : Char → Bool) : Value → Bool
  | .map kvs => goodKV isNum kvs
  | .int _ => true
  | .str _ => true
  | .link _ => true
  | .list _ => true
termination_by structural v => v

/-- Entry list check: key not a placeholder pattern (under the
`isnumeric` oracle `isNum`), key not repeated later, value good. -/
def goodKV (isNum : Char → Bool) : List (Key × Value) → Bool
  | [] => true
  | (k, v) :: r =>
    !isPlaceholderKey isNum k && !(r.any (fun p => p.1 == k)) && GoodVal isNum v && goodKV isNum r
termination_by structural l => l

end

lemma goodKV_iff {isNum : Char → Bool} {kvs : List (Key × Value)} :
    goodKV isNum kvs = true ↔ (kvs.map Prod.fst).Nodup ∧
      ∀ e ∈ kvs, isPlaceholderKey isNum e.1 = false ∧ GoodVal isNum e.2 = true := by
  induction kvs with
  | nil => simp [goodKV]
  | cons p r ih =>
    obtain ⟨k, v⟩ := p
    rw [goodKV]
    simp only [Bool.and_eq_true, Bool.not_eq_eq_eq_not, Bool.not_true, List.any_eq_false,
      Bool.not_eq_true, List.map_cons, List.nodup_cons, List.mem_cons, ih]
    constructor
    · rintro ⟨⟨⟨hk, hany⟩, hv⟩, hnd, hall⟩
      refine ⟨⟨?_, hnd⟩, ?_⟩
      · intro hmem
        obtain ⟨p, hp, hpk⟩ := List.mem_map.1 hmem
        have := hany p hp
        rw [hpk] at this
        simp at this
      · rintro e (rfl | he)
        · exact ⟨hk, hv⟩
        · exact hall e he
    · rintro ⟨⟨hknotin, hnd⟩, hall⟩
      obtain ⟨hk, hv⟩ := hall (k, v) (Or.inl rfl)
      refine ⟨⟨⟨hk, ?_⟩, hv⟩, hnd, fun e he => hall e (Or.inr he)⟩
      intro p hp
      simp only [beq_eq_false_iff_ne, ne_eq]
      intro hpk
      exact hknotin (hpk ▸ List.mem_map_of_mem Prod.fst hp)

lemma good_noMarker_aux (isNum : Char → Bool) : ∀ n : Nat,
    (∀ v : Value, sizeOf v ≤ n → GoodVal isNum v = true → NoMarkerDeep isNum v = true) ∧
    (∀ kvs : List (Key × Value), sizeOf kvs ≤ n → goodKV isNum kvs = true → nmKV isNum kvs = true) := by
  intro n
  induction n with
  | zero =>
    constructor
    · intro v hsz
      exact absurd hsz (by cases v <;> simp)
    · intro kvs hsz
      exact absurd hsz (by cases kvs <;> simp)
  | succ n ih =>
    constructor
    · intro v hsz hg
      cases v with
      | map kvs =>
        rw [NoMarkerDeep]
        rw [GoodVal] at hg
        have : sizeOf (Value.map kvs) = 1 + sizeOf kvs := by simp
        exact ih.2 kvs (by omega) hg
      | int nn => rfl
      | str s => rfl
      | link c => rfl
      | list vs => rfl
    · intro kvs hsz hg
      match kvs with
      | [] => rfl
      | (k, v) :: rest =>
        rw [goodKV] at hg
        rw [nmKV]
        simp only [Bool.and_eq_true] at hg
        obtain ⟨⟨⟨hk, _⟩, hv⟩, hrest⟩ := hg
        have hc := List.cons.sizeOf_spec (k, v) rest
        have hp := Prod.mk.sizeOf_spec k v
        have h2 : 0 < sizeOf v := by cases v <;> simp
        simp only [Bool.and_eq_true]
        exact ⟨⟨hk, ih.1 v (by omega) hv⟩, ih.2 rest (by omega) hrest⟩

lemma good_noMarker {isNum : Char → Bool} {v : Value} (h : GoodVal isNum v = true) :
    NoMarkerDeep isNum v = true :=
  (good_noMarker_aux isNum (sizeOf v)).1 v le_rfl h

section RoundTrip

variable (enc : Value → Bytes) (dec : Bytes → Option Value)
variable (hashI : Bytes → Bytes) (pHash : List Key → Int) (L : Nat)
-- `isNum` models `str.isnumeric` on single characters, as above.
variable (isNum : Char → Bool)

/-- The contract one restructured value satisfies: from any well-formed
store, `make_tree_structure` succeeds (with enough fuel), extends the
store with only small encoded nodes, produces a small node, and the
result recovers to the original value from any extension of the final
store. -/
def ValSpec (v : Value) : Prop :=
  ∀ st : IStore, WellStored hashI st →
    ∃ f0 v' st', (∀ f, f0 ≤ f → makeTree enc hashI pHash L f st v = .ok (v', st')) ∧
      StExt st st' ∧ WellStored hashI st' ∧ SmallNode L v' ∧
      NewNodes enc L st st' ∧ RecTo dec isNum st' v' v

lemma valSpec_nonmap {v : Value} (hv : asMap v = none) (hnm : NoMarkerDeep isNum v = true) :
    ValSpec enc dec hashI pHash L isNum v := by
  intro st hws
  refine ⟨1, v, st, ?_, stext_refl st, hws, ?_, newNodes_refl enc L st, ?_⟩
  · intro f hf
    match f, hf with
    | f2 + 1, _ => exact makeTree_nonmap enc hashI pHash L f2 st v hv
  · intro l hl
    rw [hv] at hl
    cases hl
  · intro st2 _
    exact recoverTree_id dec isNum v hnm st2

/-- The values loop of `make_tree_structure` on a below-limit dict:
restructure every value in order, threading the store. -/
lemma makeTreeVals_spec (kvs : List (Key × Value))
    (hv : ∀ e ∈ kvs, ValSpec enc dec hashI pHash L isNum e.2) :
    ∀ st : IStore, WellStored hashI st →
      ∃ f0 kvs' st', (∀ f, f0 ≤ f →
          makeTreeVals enc hashI pHash L f st kvs = .ok (kvs', st')) ∧
        StExt st st' ∧ WellStored hashI st' ∧ NewNodes enc L st st' ∧
        List.Forall₂ (fun e e' => e'.1 = e.1 ∧ SmallNode L e'.2 ∧
          RecTo dec isNum st' e'.2 e.2) kvs kvs' := by
  induction kvs with
  | nil =>
    intro st hws
    refine ⟨1, [], st, ?_, stext_refl st, hws, newNodes_refl enc L st, List.Forall₂.nil⟩
    intro f hf
    match f, hf with
    | f2 + 1, _ => rw [makeTreeVals]
  | cons e rest ih =>
    intro st hws
    obtain ⟨k, v⟩ := e
    obtain ⟨fa, v', st1, hfa, hext1, hws1, hsmall1, hnew1, hrec1⟩ :=
      hv (k, v) (List.mem_cons_self _ _) st hws
    obtain ⟨fb, kvs', st2, hfb, hext2, hws2, hnew2, hfa2⟩ :=
      ih (fun e he => hv e (List.mem_cons_of_mem _ he)) st1 hws1
    refine ⟨fa + fb + 1, (k, v') :: kvs', st2, ?_, stext_trans hext1 hext2, hws2,
      newNodes_trans hnew1 hnew2, ?_⟩
    · intro f hf
      match f, hf with
      | f2 + 1, hf =>
      rw [makeTreeVals]
      rw [hfa f2 (by omega)]
      dsimp only [Res.bind]
      rw [hfb f2 (by omega)]
      rfl
    · refine List.Forall₂.cons ⟨rfl, hsmall1, recTo_mono hrec1 hext2⟩ ?_
      exact hfa2

/-- Entry-wise recovery of a rebuilt dict with non-placeholder keys. -/
lemma recoverEntries_plain (st2 : IStore) :
    ∀ (kvs kvs' : List (Key × Value)),
      (∀ e ∈ kvs, isPlaceholderKey isNum e.1 = false) →
      List.Forall₂ (fun e e' => e'.1 = e.1 ∧
        ∃ g0, ∀ g, g0 ≤ g → recoverTree dec isNum g st2 e'.2 = .ok e.2) kvs kvs' →
      ∃ g0, ∀ g, g0 ≤ g → recoverEntries dec isNum g st2 kvs' = .ok (kvs, []) := by
  intro kvs kvs' hmk hfa
  induction hfa with
  | nil =>
    refine ⟨1, ?_⟩
    intro g hg
    match g, hg with
    | g2 + 1, _ => rw [recoverEntries]
  | @cons e e' kvst kvst' hee' tail ih =>
    obtain ⟨hkey, ga, hga⟩ := hee'
    obtain ⟨gb, hgb⟩ := ih (fun q hq => hmk q (List.mem_cons_of_mem _ hq))
    refine ⟨ga + gb + 1, ?_⟩
    intro g hg
    match g, hg with
    | g2 + 1, hg =>
    obtain ⟨k', v'⟩ := e'
    obtain ⟨k, v⟩ := e
    rw [recoverEntries]
    simp only at hkey
    rw [hkey, if_neg (by rw [hmk (k, v) (List.mem_cons_self _ _)]; exact fun h => Bool.noConfusion h)]
    rw [hga g2 (by omega)]
    dsimp only [Res.bind]
    rw [hgb g2 (by omega)]
    rfl

/-- Recovery of a rebuilt dict with non-placeholder keys whose values
recover to the originals: the map recovers to the original map. -/
lemma recoverMap_plain (st' : IStore) (kvs kvs' : List (Key × Value))
    (hmk : ∀ e ∈ kvs, isPlaceholderKey isNum e.1 = false)
    (hfa : List.Forall₂ (fun e e' => e'.1 = e.1 ∧ RecTo dec isNum st' e'.2 e.2) kvs kvs') :
    RecTo dec isNum st' (.map kvs') (.map kvs) := by
  intro st2 hext
  have hfa2 : List.Forall₂ (fun e e' => e'.1 = e.1 ∧
      ∃ g0, ∀ g, g0 ≤ g → recoverTree dec isNum g st2 e'.2 = .ok e.2) kvs kvs' :=
    hfa.imp (fun a b h => ⟨h.1, h.2 st2 hext⟩)
  obtain ⟨ga, hga⟩ := recoverEntries_plain dec isNum st2 kvs kvs' hmk hfa2
  refine ⟨ga + 2, ?_⟩
  intro g hg
  match g, hg with
  | g2 + 1, hg =>
  rw [recoverTree]
  dsimp only [asMap]
  rw [hga g2 (by omega)]
  dsimp only [Res.bind]
  match g2, (show ga + 1 ≤ g2 by omega) with
  | g3 + 1, _ =>
  rw [mergeRecovered]
  rfl

/-- The values loop is the identity on entries whose values are not
dicts (in particular placeholder entries, whose values are links). -/
lemma makeTreeVals_id (kvs : List (Key × Value))
    (hlink : ∀ e ∈ kvs, asMap e.2 = none) (st : IStore) :
    ∃ f0, ∀ f, f0 ≤ f → makeTreeVals enc hashI pHash L f st kvs = .ok (kvs, st) := by
  induction kvs with
  | nil =>
    refine ⟨1, ?_⟩
    intro f hf
    match f, hf with
    | f2 + 1, _ => rw [makeTreeVals]
  | cons e rest ih =>
    obtain ⟨fb, hfb⟩ := ih (fun q hq => hlink q (List.mem_cons_of_mem _ hq))
    refine ⟨fb + 2, ?_⟩
    intro f hf
    match f, hf with
    | f2 + 1, hf =>
    obtain ⟨k, v⟩ := e
    rw [makeTreeVals]
    match f2, (show fb + 1 ≤ f2 by omega) with
    | f3 + 1, hf3 =>
    rw [makeTree_nonmap enc hashI pHash L f3 st v (hlink (k, v) (List.mem_cons_self _ _))]
    dsimp only [Res.bind]
    rw [hfb (f3 + 1) (by omega)]
    rfl

/-- A placeholder entry of a sharded dict: a marker key whose link
target is stored, decodable, and recovers to its piece of the original
map. -/
def PlEntry (st : IStore) (e : Key × Value) (piece : List (Key × Value)) : Prop :=
  isPlaceholderKey isNum e.1 = true ∧
  ∃ c b sub, e.2 = .link c ∧ dlookupC st c = some b ∧ dec b = some sub ∧
    RecTo dec isNum st sub (.map piece)

/-- Invariant of one placeholder level: entries match pieces one-to-one,
placeholder keys are distinct, the pieces' keys are globally distinct
data (non-marker) keys, and the pieces' values are recovery fixed
points. -/
def PlInv (st : IStore) (pl : List (Key × Value))
    (ps : List (List (Key × Value))) : Prop :=
  List.Forall₂ (PlEntry dec isNum st) pl ps ∧
  (pl.map Prod.fst).Nodup ∧
  (ps.flatten.map Prod.fst).Nodup ∧
  (∀ p ∈ ps.flatten, isPlaceholderKey isNum p.1 = false) ∧
  (∀ p ∈ ps.flatten, ∀ st2 : IStore, ∃ g0, ∀ g, g0 ≤ g →
    recoverTree dec isNum g st2 p.2 = .ok p.2)

lemma plEntry_mono {st st' : IStore} (hext : StExt st st') {e : Key × Value}
    {piece : List (Key × Value)} (h : PlEntry dec isNum st e piece) :
    PlEntry dec isNum st' e piece := by
  obtain ⟨hk, c, b, sub, hv, hl, hd, hr⟩ := h
  exact ⟨hk, c, b, sub, hv, hext c b hl, hd, recTo_mono hr hext⟩

lemma plInv_mono {st st' : IStore} (hext : StExt st st') {pl : List (Key × Value)}
    {ps : List (List (Key × Value))} (h : PlInv dec isNum st pl ps) :
    PlInv dec isNum st' pl ps :=
  ⟨h.1.imp (fun _ _ he => plEntry_mono dec isNum hext he), h.2.1, h.2.2.1, h.2.2.2.1, h.2.2.2.2⟩

/-- The merge of one recovered node into `ret_tree`, when its keys are
fresh: plain ordered append. -/
lemma mergeOne_spec (st2 : IStore) :
    ∀ (piece ret : List (Key × Value)),
      (∀ p ∈ piece, ∀ q ∈ ret, q.1 ≠ p.1) →
      (piece.map Prod.fst).Nodup →
      (∀ p ∈ piece, ∃ g0, ∀ g, g0 ≤ g → recoverTree dec isNum g st2 p.2 = .ok p.2) →
      ∃ g0, ∀ g, g0 ≤ g → mergeOne dec isNum g st2 ret piece = .ok (ret ++ piece) := by
  intro piece
  induction piece with
  | nil =>
    intro ret _ _ _
    refine ⟨1, ?_⟩
    intro g hg
    match g, hg with
    | g2 + 1, _ => rw [mergeOne]; simp
  | cons p rest ih =>
    intro ret hfresh hnd hid
    obtain ⟨k, w⟩ := p
    obtain ⟨ga, hga⟩ := hid (k, w) (List.mem_cons_self _ _)
    simp only [List.map_cons, List.nodup_cons] at hnd
    obtain ⟨gb, hgb⟩ := ih (ret ++ [(k, w)])
      (by
        intro p2 hp2 q hq
        rcases List.mem_append.1 hq with hq2 | hq2
        · exact hfresh p2 (List.mem_cons_of_mem _ hp2) q hq2
        · rcases List.mem_singleton.1 hq2 with rfl
          intro hcon
          apply hnd.1
          rw [show k = p2.1 from hcon]
          exact List.mem_map_of_mem Prod.fst hp2)
      hnd.2
      (fun p2 hp2 => hid p2 (List.mem_cons_of_mem _ hp2))
    refine ⟨ga + gb + 1, ?_⟩
    intro g hg
    match g, hg with
    | g2 + 1, hg =>
    rw [mergeOne]
    rw [hga g2 (by omega)]
    dsimp only [Res.bind]
    rw [dinsertV_fresh (fun q hq => hfresh (k, w) (List.mem_cons_self _ _) q hq)]
    rw [hgb g2 (by omega)]
    simp

/-- The merge loop over all recovered nodes: ordered concatenation when
all keys are globally fresh. -/
lemma mergeRecovered_spec (st2 : IStore) :
    ∀ (ps : List (List (Key × Value))) (ret : List (Key × Value)),
      (∀ p ∈ ps.flatten, ∀ q ∈ ret, q.1 ≠ p.1) →
      (ps.flatten.map Prod.fst).Nodup →
      (∀ p ∈ ps.flatten, ∃ g0, ∀ g, g0 ≤ g → recoverTree dec isNum g st2 p.2 = .ok p.2) →
      ∃ g0, ∀ g, g0 ≤ g →
        mergeRecovered dec isNum g st2 ret (ps.map Value.map) = .ok (ret ++ ps.flatten) := by
  intro ps
  induction ps with
  | nil =>
    intro ret _ _ _
    refine ⟨1, ?_⟩
    intro g hg
    match g, hg with
    | g2 + 1, _ => rw [List.map_nil, mergeRecovered]; simp
  | cons piece rest ih =>
    intro ret hfresh hnd hid
    simp only [List.flatten_cons] at hfresh hnd hid
    have hndp : ((piece ++ rest.flatten).map Prod.fst).Nodup := hnd
    rw [List.map_append, List.nodup_append] at hndp
    obtain ⟨ga, hga⟩ := mergeOne_spec dec isNum st2 piece ret
      (fun p hp q hq => hfresh p (List.mem_append_left _ hp) q hq)
      hndp.1
      (fun p hp => hid p (List.mem_append_left _ hp))
    obtain ⟨gb, hgb⟩ := ih (ret ++ piece)
      (by
        intro p hp q hq
        rcases List.mem_append.1 hq with hq2 | hq2
        · exact hfresh p (List.mem_append_right _ hp) q hq2
        · intro hcon
          have h1 : p.1 ∈ List.map Prod.fst piece := by
            rw [← hcon]
            exact List.mem_map_of_mem Prod.fst hq2
          exact hndp.2.2 h1 (List.mem_map_of_mem Prod.fst hp)
      )
      hndp.2.1
      (fun p hp => hid p (List.mem_append_right _ hp))
    refine ⟨ga + gb + 1, ?_⟩
    intro g hg
    match g, hg with
    | g2 + 1, hg =>
    rw [List.map_cons, mergeRecovered]
    dsimp only [asMap]
    rw [hga g2 (by omega)]
    dsimp only [Res.bind]
    rw [hgb g2 (by omega)]
    simp [List.append_assoc]

/-- The entries loop of `recover_tree` on an all-placeholder dict:
collect the recovered nodes in order, no plain entries. -/
lemma recoverEntries_pl {st : IStore} (st2 : IStore) (hext : StExt st st2)
    {pl : List (Key × Value)} {ps : List (List (Key × Value))}
    (hfa : List.Forall₂ (PlEntry dec isNum st) pl ps) :
    ∃ g0, ∀ g, g0 ≤ g →
      recoverEntries dec isNum g st2 pl = .ok ([], ps.map Value.map) := by
  induction hfa with
  | nil =>
    refine ⟨1, ?_⟩
    intro g hg
    match g, hg with
    | g2 + 1, _ => rw [recoverEntries]; rfl
  | @cons e piece plt pst hee tail ih =>
    obtain ⟨hk, c, b, sub, hv, hl, hd, hr⟩ := hee
    obtain ⟨ga, hga⟩ := hr st2 hext
    obtain ⟨gb, hgb⟩ := ih
    refine ⟨ga + gb + 1, ?_⟩
    intro g hg
    match g, hg with
    | g2 + 1, hg =>
    obtain ⟨k, v⟩ := e
    rw [recoverEntries]
    simp only at hk hv
    rw [if_pos hk, hv]
    dsimp only [asLink]
    rw [hext c b hl]
    dsimp only
    rw [hd]
    dsimp only
    rw [hga g2 (by omega)]
    dsimp only [Res.bind]
    rw [hgb g2 (by omega)]
    rfl

/-- Recovery of an all-placeholder dict: the ordered union of its
pieces. -/
lemma recover_pl {st : IStore} {pl : List (Key × Value)}
    {ps : List (List (Key × Value))} (hinv : PlInv dec isNum st pl ps) :
    RecTo dec isNum st (.map pl) (.map ps.flatten) := by
  intro st2 hext
  obtain ⟨hfa, hndpl, hndps, hmk, hid⟩ := hinv
  obtain ⟨ga, hga⟩ := recoverEntries_pl dec isNum st2 hext hfa
  obtain ⟨gb, hgb⟩ := mergeRecovered_spec dec isNum st2 ps []
    (fun p _ q hq => absurd hq (List.not_mem_nil q))
    hndps
    (fun p hp => hid p hp st2)
  refine ⟨ga + gb + 1, ?_⟩
  intro g hg
  match g, hg with
  | g2 + 1, hg =>
  rw [recoverTree]
  dsimp only [asMap]
  rw [hga g2 (by omega)]
  dsimp only [Res.bind]
  rw [hgb g2 (by omega)]
  rfl

/-! ### Group processing -/

lemma forall₂_mem_left {R : α → β → Prop} :
    ∀ {l1 : List α} {l2 : List β}, List.Forall₂ R l1 l2 → ∀ a ∈ l1, ∃ b ∈ l2, R a b := by
  intro l1 l2 h
  induction h with
  | nil => intro a ha; cases ha
  | cons hR tail ih =>
    intro a ha
    rcases List.mem_cons.1 ha with rfl | ha2
    · exact ⟨_, List.mem_cons_self _ _, hR⟩
    · obtain ⟨b, hb, hRb⟩ := ih a ha2
      exact ⟨b, List.mem_cons_of_mem _ hb, hRb⟩

lemma forall₂_chunkGo {R : α → β → Prop} (n : Nat) :
    ∀ f {l1 : List α} {l2 : List β}, List.Forall₂ R l1 l2 →
      List.Forall₂ (List.Forall₂ R) (chunkListGo n f l1) (chunkListGo n f l2) := by
  intro f
  induction f with
  | zero => intro l1 l2 _; rw [chunkListGo, chunkListGo]; exact List.Forall₂.nil
  | succ f ih =>
    intro l1 l2 h
    cases h with
    | nil => rw [chunkListGo, chunkListGo]; exact List.Forall₂.nil
    | @cons a b t1 t2 hR tail =>
      rw [chunkListGo, chunkListGo]
      exact List.Forall₂.cons (List.Forall₂.cons hR (List.forall₂_take _ tail))
        (ih (List.forall₂_drop _ tail))

lemma forall₂_chunk {R : α → β → Prop} (n : Nat) {l1 : List α} {l2 : List β}
    (h : List.Forall₂ R l1 l2) :
    List.Forall₂ (List.Forall₂ R) (chunkList n l1) (chunkList n l2) := by
  rw [chunkList, chunkList, h.length_eq]
  exact forall₂_chunkGo n (l2.length + 1) h

lemma flatten_map_flatten : ∀ (l : List (List (List α))),
    (l.map List.flatten).flatten = l.flatten.flatten := by
  intro l
  induction l with
  | nil => rfl
  | cons x r ih => simp [ih]

lemma chunkList_flatten {L : Nat} (l : List α) : (chunkList L l).flatten = l :=
  chunkListGo_flatten L (l.length + 1) l (by omega)

/-- Chunks of a duplicate-free list are pairwise distinct lists. -/
lemma chunkList_nodup {L : Nat} (hL : 1 ≤ L) {l : List α} (hnd : l.Nodup) :
    (chunkList L l).Nodup := by
  have hflat : (chunkList L l).flatten.Nodup := by
    rw [chunkList_flatten]
    exact hnd
  rw [List.nodup_flatten] at hflat
  have hne : ∀ c ∈ chunkList L l, c ≠ [] :=
    fun c hc => (chunkListGo_mem_strong hL hc).1
  refine List.Pairwise.imp_of_mem ?_ hflat.2
  intro a b ha _ hdis
  intro hab
  match hh : a with
  | [] => exact hne [] (hh ▸ ha) rfl
  | x :: r =>
    subst hab
    exact hdis (List.mem_cons_self x r) (List.mem_cons_self x r)

section GroupLemmas

/-- What the group loop needs of each chunk: restructuring the chunk's
sub-dict from any well-formed extension of the base store succeeds,
extends the store conservatively, and the result recovers to the chunk's
piece of the original map. -/
def ChunkSpec (st0 : IStore) (chunk piece : List (Key × Value)) : Prop :=
  chunk.length ≤ L ∧
  ∀ st : IStore, WellStored hashI st → StExt st0 st →
    ∃ f0 chunk' st', (∀ f, f0 ≤ f →
        makeTree enc hashI pHash L f st (.map chunk) = .ok (.map chunk', st')) ∧
      StExt st st' ∧ WellStored hashI st' ∧ NewNodes enc L st st' ∧
      chunk'.length ≤ L ∧ RecTo dec isNum st' (.map chunk') (.map piece)

/-- The `for group_of_keys in grouper(...)` loop: each chunk's sub-dict
is rebuilt by key lookup, restructured, stored, and replaced by one
placeholder link entry. -/
lemma makeGroups_spec (hnum : ∀ c, isDigitCh c = true → isNum c = true)
    (hdec : ∀ w, dec (enc w) = some w)
    (hinj : Function.Injective hashI)
    (hrange : ∀ g, pHash g < 0 ∨ 10 ≤ pHash g)
    (kvs : List (Key × Value)) (st0 : IStore) :
    ∀ (chunks ps : List (List (Key × Value))),
      List.Forall₂ (ChunkSpec enc dec hashI pHash L isNum st0) chunks ps →
      (∀ chunk ∈ chunks, (chunk.map Prod.fst).filterMap
        (fun k => (dlookup kvs k).map (fun v => (k, v))) = chunk) →
      ∀ st : IStore, WellStored hashI st → StExt st0 st →
      ∃ f0 pl st', (∀ f, f0 ≤ f →
          makeGroups enc hashI pHash L f st (chunks.map (List.map Prod.fst)) kvs =
            .ok (pl, st')) ∧
        StExt st st' ∧ WellStored hashI st' ∧ NewNodes enc L st st' ∧
        pl.map Prod.fst = chunks.map (fun c => genKey pHash (c.map Prod.fst)) ∧
        List.Forall₂ (PlEntry dec isNum st') pl ps := by
  intro chunks ps hfa
  induction hfa with
  | nil =>
    intro _ st hws _
    refine ⟨1, [], st, ?_, stext_refl st, hws, newNodes_refl enc L st, rfl, List.Forall₂.nil⟩
    intro f hf
    match f, hf with
    | f2 + 1, _ => rw [List.map_nil, makeGroups]
  | @cons chunk piece chunkt pst hc tail ih =>
    intro hre st hws hext0
    obtain ⟨hclen, hcs⟩ := hc
    obtain ⟨fa, chunk', st1, hfa2, hext1, hws1, hnew1, hclen', hrec1⟩ := hcs st hws hext0
    obtain ⟨hext2, hws2, hlook2, hnew2c⟩ :=
      ipfsPutRaw_ext hinj hws1 (enc (.map chunk')) dagCborCode
    have hnew2 : NewNodes enc L st1 (ipfsPutRaw hashI st1 (enc (.map chunk')) dagCborCode).2 := by
      intro c0 b0 h0
      rcases hnew2c c0 b0 h0 with h1 | h1
      · exact Or.inl h1
      · refine Or.inr ⟨.map chunk', h1, ?_⟩
        intro l hl
        rw [asMap] at hl
        injection hl with hl2
        rw [← hl2]
        exact hclen'
    obtain ⟨fb, pl', st3, hfb, hext3, hws3, hnew3, hkeys3, hfa3⟩ :=
      ih (fun c hc2 => hre c (List.mem_cons_of_mem _ hc2))
        (ipfsPutRaw hashI st1 (enc (.map chunk')) dagCborCode).2 hws2
        (stext_trans hext0 (stext_trans hext1 hext2))
    refine ⟨fa + fb + 2,
      (genKey pHash (chunk.map Prod.fst),
        .link (ipfsPutRaw hashI st1 (enc (.map chunk')) dagCborCode).1) :: pl', st3,
      ?_, stext_trans hext1 (stext_trans hext2 hext3),
      hws3, newNodes_trans hnew1 (newNodes_trans hnew2 hnew3), ?_, ?_⟩
    · intro f hf
      match f, hf with
      | f2 + 1, hf =>
      rw [List.map_cons, makeGroups]
      rw [hre chunk (List.mem_cons_self _ _)]
      rw [hfa2 f2 (by omega)]
      dsimp only [Res.bind]
      rw [hfb f2 (by omega)]
      rfl
    · simp [hkeys3]
    · refine List.Forall₂.cons ?_ hfa3
      refine ⟨genKey_marker isNum hnum pHash (chunk.map Prod.fst) (hrange _), ?_⟩
      refine ⟨(ipfsPutRaw hashI st1 (enc (.map chunk')) dagCborCode).1,
        enc (.map chunk'), .map chunk', rfl, hext3 _ _ hlook2, hdec _, ?_⟩
      exact recTo_mono hrec1 (stext_trans hext2 hext3)

end GroupLemmas

/-! ### Gluing lemmas for the oversized case -/

lemma forall₂_imp_mem {R S : α → β → Prop} :
    ∀ {l1 : List α} {l2 : List β}, List.Forall₂ R l1 l2 →
      (∀ a ∈ l1, ∀ b ∈ l2, R a b → S a b) → List.Forall₂ S l1 l2 := by
  intro l1 l2 h
  induction h with
  | nil => intro _; exact List.Forall₂.nil
  | cons hR tail ih =>
    intro himp
    refine List.Forall₂.cons
      (himp _ (List.mem_cons_self _ _) _ (List.mem_cons_self _ _) hR) ?_
    exact ih (fun a ha b hb hr =>
      himp a (List.mem_cons_of_mem _ ha) b (List.mem_cons_of_mem _ hb) hr)

lemma chunkList_mem_strong {L : Nat} (hL : 1 ≤ L) {l c : List α}
    (hc : c ∈ chunkList L l) : c ≠ [] ∧ c.length ≤ L :=
  chunkListGo_mem_strong hL (by rw [chunkList] at hc; exact hc)

/-- Members of a chunk are members of the chunked list. -/
lemma chunkList_mem_sub {L : Nat} {l c : List α} (hc : c ∈ chunkList L l)
    {p : α} (hp : p ∈ c) : p ∈ l := by
  have h1 : p ∈ (chunkList L l).flatten := List.mem_flatten.2 ⟨c, hc, hp⟩
  rw [chunkList_flatten] at h1
  exact h1

/-- A member of a family whose flattening has duplicate-free images has a
duplicate-free image itself. -/
lemma nodup_flatten_member (f : α → β) {X : List (List α)} {x : List α}
    (hnd : (X.flatten.map f).Nodup) (hx : x ∈ X) : (x.map f).Nodup := by
  rw [List.map_flatten] at hnd
  rw [List.nodup_flatten] at hnd
  exact hnd.1 _ (List.mem_map_of_mem _ hx)

/-- `sub_tree = {key: node[key] for key in group_of_keys}` rebuilds the
chunk itself when the chunk's entries come from a duplicate-free dict. -/
lemma filterMap_lookup_chunk :
    ∀ (chunk kvs : List (Key × Value)),
      (∀ p ∈ chunk, dlookup kvs p.1 = some p.2) →
      (chunk.map Prod.fst).filterMap
        (fun k => (dlookup kvs k).map (fun v => (k, v))) = chunk := by
  intro chunk
  induction chunk with
  | nil => intro kvs _; rfl
  | cons p rest ih =>
    intro kvs h
    obtain ⟨k, v⟩ := p
    have h1 : (dlookup kvs k).map (fun v => (k, v)) = some (k, v) := by
      rw [h (k, v) (List.mem_cons_self _ _)]
      rfl
    rw [List.map_cons, List.filterMap_cons, h1]
    dsimp only
    rw [ih kvs (fun q hq => h q (List.mem_cons_of_mem _ hq))]

/-- A below-limit all-placeholder level is left untouched by
`make_tree_structure` (its values are links, not dicts) and recovers to
the ordered union of its pieces. -/
lemma shard_pl_small {pl : List (Key × Value)} {ps : List (List (Key × Value))}
    {st : IStore} (hlen : pl.length ≤ L) (hinv : PlInv dec isNum st pl ps) :
    (∃ f0, ∀ f, f0 ≤ f →
        makeTree enc hashI pHash L f st (.map pl) = .ok (.map pl, st)) ∧
      RecTo dec isNum st (.map pl) (.map ps.flatten) := by
  have hlinks : ∀ e ∈ pl, asMap e.2 = none := by
    intro e he
    obtain ⟨b, hb, hR⟩ := forall₂_mem_left hinv.1 e he
    obtain ⟨_, c, bb, sub, hv, _⟩ := hR
    rw [hv]
    rfl
  obtain ⟨fa, hfa⟩ := makeTreeVals_id enc hashI pHash L pl hlinks st
  refine ⟨⟨fa + 1, ?_⟩, recover_pl dec isNum hinv⟩
  intro f hf
  match f, hf with
  | f2 + 1, hf =>
  rw [makeTree]
  dsimp only [asMap]
  rw [if_pos hlen, hfa f2 (by omega)]
  rfl

/-- Sharding one placeholder level: an all-placeholder dict of any size
is restructured (recursing through further placeholder levels while it
stays oversized) into a small node from which recovery rebuilds the
ordered union of the original pieces. -/
lemma shard_pl (hnum : ∀ c, isDigitCh c = true → isNum c = true)
    (hdec : ∀ w, dec (enc w) = some w)
    (hinjI : Function.Injective hashI)
    (hpinj : ∀ g1 g2, pHash g1 = pHash g2 → g1 = g2)
    (hrange : ∀ g, pHash g < 0 ∨ 10 ≤ pHash g)
    (hL : 2 ≤ L) :
    ∀ n : Nat, ∀ (pl : List (Key × Value)) (ps : List (List (Key × Value)))
      (st : IStore), pl.length ≤ n → PlInv dec isNum st pl ps → WellStored hashI st →
      ∃ f0 v' st', (∀ f, f0 ≤ f →
          makeTree enc hashI pHash L f st (.map pl) = .ok (v', st')) ∧
        StExt st st' ∧ WellStored hashI st' ∧ SmallNode L v' ∧
        NewNodes enc L st st' ∧ RecTo dec isNum st' v' (.map ps.flatten) := by
  intro n
  induction n with
  | zero =>
    intro pl ps st hn hinv hws
    have hlen : pl.length ≤ L := by omega
    obtain ⟨⟨f0, hf0⟩, hrec⟩ := shard_pl_small enc dec hashI pHash L isNum hlen hinv
    refine ⟨f0, .map pl, st, hf0, stext_refl st, hws, ?_, newNodes_refl enc L st, hrec⟩
    intro l hl
    rw [asMap] at hl
    injection hl with hl2
    rw [← hl2]
    exact hlen
  | succ n ih =>
    intro pl ps st hn hinv hws
    by_cases hsz : pl.length ≤ L
    · obtain ⟨⟨f0, hf0⟩, hrec⟩ := shard_pl_small enc dec hashI pHash L isNum hsz hinv
      refine ⟨f0, .map pl, st, hf0, stext_refl st, hws, ?_, newNodes_refl enc L st, hrec⟩
      intro l hl
      rw [asMap] at hl
      injection hl with hl2
      rw [← hl2]
      exact hsz
    · obtain ⟨hfa, hndpl, hndps, hmk, hid⟩ := hinv
      have hL1 : 1 ≤ L := by omega
      have hflat : ((chunkList L ps).map List.flatten).flatten = ps.flatten := by
        rw [flatten_map_flatten, chunkList_flatten]
      have hfaC : List.Forall₂ (List.Forall₂ (PlEntry dec isNum st))
          (chunkList L pl) (chunkList L ps) := forall₂_chunk L hfa
      have hcs : List.Forall₂ (ChunkSpec enc dec hashI pHash L isNum st)
          (chunkList L pl) ((chunkList L ps).map List.flatten) := by
        rw [List.forall₂_map_right_iff]
        refine forall₂_imp_mem hfaC ?_
        intro chunk hc psChunk hpc hpair
        have hsubp : ∀ p ∈ psChunk.flatten, p ∈ ps.flatten := by
          intro p hp
          obtain ⟨piece, hpiece, hp2⟩ := List.mem_flatten.1 hp
          exact List.mem_flatten.2 ⟨piece, chunkList_mem_sub hpc hpiece, hp2⟩
        refine ⟨(chunkList_mem_strong hL1 hc).2, ?_⟩
        intro st1 hws1 hext1
        have hinv1 : PlInv dec isNum st1 chunk psChunk := by
          refine ⟨hpair.imp (fun a b h => plEntry_mono dec isNum hext1 h), ?_, ?_, ?_, ?_⟩
          · refine nodup_flatten_member Prod.fst ?_ hc
            rw [chunkList_flatten]
            exact hndpl
          · refine nodup_flatten_member Prod.fst ?_
              (List.mem_map_of_mem List.flatten hpc)
            rw [hflat]
            exact hndps
          · exact fun p hp => hmk p (hsubp p hp)
          · exact fun p hp => hid p (hsubp p hp)
        obtain ⟨⟨f0, hf0⟩, hrec⟩ :=
          shard_pl_small enc dec hashI pHash L isNum (chunkList_mem_strong hL1 hc).2 hinv1
        exact ⟨f0, chunk, st1, hf0, stext_refl st1, hws1, newNodes_refl enc L st1,
          (chunkList_mem_strong hL1 hc).2, hrec⟩
      have hre : ∀ chunk ∈ chunkList L pl, (chunk.map Prod.fst).filterMap
          (fun k => (dlookup pl k).map (fun v => (k, v))) = chunk := by
        intro chunk hc
        refine filterMap_lookup_chunk chunk pl ?_
        intro p hp
        obtain ⟨k, v⟩ := p
        exact dlookup_eq_some_of_mem hndpl (chunkList_mem_sub hc hp)
      obtain ⟨fG, plG, stG, hfG, hextG, hwsG, hnewG, hkeysG, hfaG⟩ :=
        makeGroups_spec enc dec hashI pHash L isNum hnum hdec hinjI hrange pl st
          (chunkList L pl) ((chunkList L ps).map List.flatten) hcs hre
          st hws (stext_refl st)
      have hndplG : (plG.map Prod.fst).Nodup := by
        rw [hkeysG]
        have h2 : (chunkList L pl).map (fun c => genKey pHash (c.map Prod.fst)) =
            ((chunkList L pl).map (List.map Prod.fst)).map (genKey pHash) := by
          rw [List.map_map]
          rfl
        rw [h2, ← chunkList_map]
        refine List.Nodup.map_on ?_ (chunkList_nodup hL1 hndpl)
        intro g1 _ g2 _ heq
        exact genKey_inj pHash hpinj heq
      have hinvG : PlInv dec isNum stG plG ((chunkList L ps).map List.flatten) := by
        refine ⟨hfaG, hndplG, ?_, ?_, ?_⟩
        · rw [hflat]
          exact hndps
        · exact fun p hp => hmk p (hflat ▸ hp)
        · exact fun p hp => hid p (hflat ▸ hp)
      have hlenG : plG.length = (chunkList L pl).length := by
        have h3 := congrArg List.length hkeysG
        simpa using h3
      have hlt : (chunkList L pl).length < pl.length :=
        chunkList_count_lt hL (by omega)
      obtain ⟨fB, v', st', hfB, hextB, hwsB, hsmallB, hnewB, hrecB⟩ :=
        ih plG ((chunkList L ps).map List.flatten) stG (by omega) hinvG hwsG
      rw [hflat] at hrecB
      refine ⟨fG + fB + 1, v', st', ?_, stext_trans hextG hextB, hwsB, hsmallB,
        newNodes_trans hnewG hnewB, hrecB⟩
      intro f hf
      match f, hf with
      | f2 + 1, hf =>
      rw [makeTree]
      dsimp only [asMap]
      rw [if_neg hsz, chunkList_map, hfG f2 (by omega)]
      dsimp only [Res.bind]
      exact hfB f2 (by omega)

/-- Every round-trippable value satisfies the restructuring contract:
`make_tree_structure` succeeds, emits only small dag-cbor nodes, returns
a small root node, and `recover_tree` rebuilds the value exactly. -/
lemma goodVal_valSpec (hnum : ∀ c, isDigitCh c = true → isNum c = true)
    (hdec : ∀ w, dec (enc w) = some w)
    (hinjI : Function.Injective hashI)
    (hpinj : ∀ g1 g2, pHash g1 = pHash g2 → g1 = g2)
    (hrange : ∀ g, pHash g < 0 ∨ 10 ≤ pHash g)
    (hL : 2 ≤ L) :
    ∀ n : Nat, ∀ v : Value, sizeOf v ≤ n → GoodVal isNum v = true →
      ValSpec enc dec hashI pHash L isNum v := by
  intro n
  induction n with
  | zero =>
    intro v hsz
    exact absurd hsz (by cases v <;> simp)
  | succ n ih =>
    intro v hsz hg
    cases v with
    | int m => exact valSpec_nonmap enc dec hashI pHash L isNum rfl (good_noMarker hg)
    | str s => exact valSpec_nonmap enc dec hashI pHash L isNum rfl (good_noMarker hg)
    | link c => exact valSpec_nonmap enc dec hashI pHash L isNum rfl (good_noMarker hg)
    | list l => exact valSpec_nonmap enc dec hashI pHash L isNum rfl (good_noMarker hg)
    | map kvs =>
      rw [GoodVal, goodKV_iff] at hg
      obtain ⟨hnd, hall⟩ := hg
      have hszk : sizeOf kvs ≤ n := by
        have h1 : sizeOf (Value.map kvs) = 1 + sizeOf kvs := by simp
        omega
      have hvals : ∀ e ∈ kvs, ValSpec enc dec hashI pHash L isNum e.2 := by
        intro e he
        obtain ⟨k, w⟩ := e
        refine ih w ?_ (hall (k, w) he).2
        have h2 := sizeOf_snd_lt_of_mem_kvs he
        omega
      intro st hws
      by_cases hszL : kvs.length ≤ L
      · obtain ⟨fa, kvs', st1, hfa, hext1, hws1, hnew1, hfa2⟩ :=
          makeTreeVals_spec enc dec hashI pHash L isNum kvs hvals st hws
        refine ⟨fa + 1, .map kvs', st1, ?_, hext1, hws1, ?_, hnew1, ?_⟩
        · intro f hf
          match f, hf with
          | f2 + 1, hf =>
          rw [makeTree]
          dsimp only [asMap]
          rw [if_pos hszL, hfa f2 (by omega)]
          rfl
        · intro l hl
          rw [asMap] at hl
          injection hl with hl2
          rw [← hl2, ← hfa2.length_eq]
          exact hszL
        · refine recoverMap_plain dec isNum st1 kvs kvs' (fun e he => (hall e he).1) ?_
          exact hfa2.imp (fun a b h => ⟨h.1, h.2.2⟩)
      · have hL1 : 1 ≤ L := by omega
        have hcs : List.Forall₂ (ChunkSpec enc dec hashI pHash L isNum st)
            (chunkList L kvs) (chunkList L kvs) := by
          refine List.forall₂_same.2 ?_
          intro chunk hc
          refine ⟨(chunkList_mem_strong hL1 hc).2, ?_⟩
          intro st1 hws1 hext1
          obtain ⟨f0, chunk', st2, hf0, hext2, hws2, hnew2, hfa2⟩ :=
            makeTreeVals_spec enc dec hashI pHash L isNum chunk
              (fun e he => hvals e (chunkList_mem_sub hc he)) st1 hws1
          refine ⟨f0 + 1, chunk', st2, ?_, hext2, hws2, hnew2, ?_, ?_⟩
          · intro f hf
            match f, hf with
            | f2 + 1, hf =>
            rw [makeTree]
            dsimp only [asMap]
            rw [if_pos (chunkList_mem_strong hL1 hc).2, hf0 f2 (by omega)]
            rfl
          · rw [← hfa2.length_eq]
            exact (chunkList_mem_strong hL1 hc).2
          · refine recoverMap_plain dec isNum st2 chunk chunk'
              (fun e he => (hall e (chunkList_mem_sub hc he)).1) ?_
            exact hfa2.imp (fun a b h => ⟨h.1, h.2.2⟩)
        have hre : ∀ chunk ∈ chunkList L kvs, (chunk.map Prod.fst).filterMap
            (fun k => (dlookup kvs k).map (fun w => (k, w))) = chunk := by
          intro chunk hc
          refine filterMap_lookup_chunk chunk kvs ?_
          intro p hp
          obtain ⟨k, w⟩ := p
          exact dlookup_eq_some_of_mem hnd (chunkList_mem_sub hc hp)
        obtain ⟨fG, plG, stG, hfG, hextG, hwsG, hnewG, hkeysG, hfaG⟩ :=
          makeGroups_spec enc dec hashI pHash L isNum hnum hdec hinjI hrange kvs st
            (chunkList L kvs) (chunkList L kvs) hcs hre st hws (stext_refl st)
        have hndplG : (plG.map Prod.fst).Nodup := by
          rw [hkeysG]
          have h2 : (chunkList L kvs).map (fun c => genKey pHash (c.map Prod.fst)) =
              ((chunkList L kvs).map (List.map Prod.fst)).map (genKey pHash) := by
            rw [List.map_map]
            rfl
          rw [h2, ← chunkList_map]
          refine List.Nodup.map_on ?_ (chunkList_nodup hL1 hnd)
          intro g1 _ g2 _ heq
          exact genKey_inj pHash hpinj heq
        have hinvG : PlInv dec isNum stG plG (chunkList L kvs) := by
          refine ⟨hfaG, hndplG, ?_, ?_, ?_⟩
          · rw [chunkList_flatten]
            exact hnd
          · intro p hp
            rw [chunkList_flatten] at hp
            exact (hall p hp).1
          · intro p hp st2
            rw [chunkList_flatten] at hp
            exact recoverTree_id dec isNum p.2 (good_noMarker (hall p hp).2) st2
        obtain ⟨fB, v', st', hfB, hextB, hwsB, hsmallB, hnewB, hrecB⟩ :=
          shard_pl enc dec hashI pHash L isNum hnum hdec hinjI hpinj hrange hL
            plG.length plG (chunkList L kvs) stG le_rfl hinvG hwsG
        rw [chunkList_flatten] at hrecB
        refine ⟨fG + fB + 1, v', st', ?_, stext_trans hextG hextB, hwsB, hsmallB,
          newNodes_trans hnewG hnewB, hrecB⟩
        intro f hf
        match f, hf with
        | f2 + 1, hf =>
        rw [makeTree]
        dsimp only [asMap]
        rw [if_neg hszL, chunkList_map, hfG f2 (by omega)]
        dsimp only [Res.bind]
        exact hfB f2 (by omega)

end RoundTrip

/-! ## C1: the shard/recover round trip -/

/-- C1 counterexample: the claim fails as stated for every `L ≥ 1`.  On
the map `{"/98": 6}` — a one-entry dict, so `make_tree_structure` with
`max_nodes_per_level = 10` is the identity and stores nothing — 
`recover_tree` does not return the map: the data key `"/98"` matches the
syntactic placeholder pattern, so recovery tries to read a link out of
the integer `6` and crashes (`AttributeError` in the source; the
`isnumeric` oracle is instantiated by the ASCII digit test, with which
Python's `str.isnumeric` agrees on every character of this input).  The claim
also fails for `L = 1`: an oversized dict is rewritten into one
placeholder entry per key, and the rewritten parent (with as many
entries as the original) is recursively restructured again without ever
shrinking, so `make_tree_structure` does not terminate. -/
theorem shard_roundtrip_marker_key :
    makeTree (fun _ => [0]) (fun b => b) (fun _ => 0) 10 3 []
        (.map [(['/', '9', '8'], .int 6)]) =
      .ok (.map [(['/', '9', '8'], .int 6)], []) ∧
    (recoverTree (fun _ => none) isDigitCh 3 []
      (.map [(['/', '9', '8'], .int 6)])).isErr = true := by
  constructor
  · exact makeTree_single_int (fun _ => [0]) (fun b => b) (fun _ => 0) 10 0 []
      ['/', '9', '8'] 6 (by omega)
  · decide

/-- C1 (amended): recovering a sharded map is the exact inverse of
sharding it, under the hypotheses the code actually needs: the cbor
codec is lossless, the block hash is injective, the group hash is
injective with every value negative or at least 10, the node limit is at
least 2 (not 1), the backing store is well formed, and every map inside
the value has duplicate-free keys none of which matches the syntactic
placeholder pattern — judged by the true `str.isnumeric` oracle `isNum`,
of which only the verifiable fact that ASCII digits are numeric is
assumed.  Then `make_tree_structure` terminates, every node
it produces — the final root and every stored sub-group node — has at
most `max_nodes_per_level` entries, and `recover_tree` on the result
returns the original value exactly (even with its key/value pairs in the
original order). -/
theorem shard_recover_roundtrip
    (enc : Value → Bytes) (dec : Bytes → Option Value)
    (hashI : Bytes → Bytes) (pHash : List Key → Int) (L : Nat)
    (isNum : Char → Bool)
    (hnum : ∀ c, isDigitCh c = true → isNum c = true)
    (hdec : ∀ w, dec (enc w) = some w)
    (hinjI : Function.Injective hashI)
    (hpinj : ∀ g1 g2, pHash g1 = pHash g2 → g1 = g2)
    (hrange : ∀ g, pHash g < 0 ∨ 10 ≤ pHash g)
    (hL : 2 ≤ L)
    (v : Value) (hgood : GoodVal isNum v = true)
    (st : IStore) (hws : WellStored hashI st) :
    ∃ f0 v' st', (∀ f, f0 ≤ f →
        makeTree enc hashI pHash L f st v = .ok (v', st')) ∧
      StExt st st' ∧ WellStored hashI st' ∧ SmallNode L v' ∧
      NewNodes enc L st st' ∧
      ∃ g0, ∀ g, g0 ≤ g → recoverTree dec isNum g st' v' = .ok v := by
  obtain ⟨f0, v', st', hf, hext, hws', hsmall, hnew, hrec⟩ :=
    goodVal_valSpec enc dec hashI pHash L isNum hnum hdec hinjI hpinj hrange hL
      (sizeOf v) v le_rfl hgood st hws
  exact ⟨f0, v', st', hf, hext, hws', hsmall, hnew, hrec st' (stext_refl st')⟩

/-! ## A concrete lossless codec for the round-trip witness -/

/-- Injective encoding of integers into naturals (sign interleaving). -/
def encInt : Int → Nat
  | .ofNat n => 2 * n
  | .negSucc n => 2 * n + 1

/-- Injective encoding of strings into naturals (pair chaining). -/
def encKey : List Char → Nat
  | [] => 0
  | c :: r => Nat.pair c.toNat (encKey r) + 1

/-- Injective encoding of byte strings into naturals. -/
def encNatList : List Nat → Nat
  | [] => 0
  | n :: r => Nat.pair n (encNatList r) + 1

/-- Injective encoding of identifiers into naturals. -/
def encCID (c : CID) : Nat :=
  Nat.pair c.version (Nat.pair c.base (Nat.pair c.codec
    (Nat.pair c.hashFn (encNatList c.digest))))

/-- Injective encoding of key lists into naturals. -/
def encKeyList : List Key → Nat
  | [] => 0
  | k :: r => Nat.pair (encKey k) (encKeyList r) + 1

mutual

/-- Injective encoding of structured values into naturals (constructor
tag modulo 5, components pair-chained). -/
def encV : Value → Nat
  | .int n => 5 * encInt n
  | .str s => 5 * encKey s + 1
  | .link c => 5 * encCID c + 2
  | .map kvs => 5 * encKVn kvs + 3
  | .list l => 5 * encLn l + 4
termination_by structural v => v

/-- Entry-list component of `encV`. -/
def encKVn : List (Key × Value) → Nat
  | [] => 0
  | (k, w) :: r => Nat.pair (Nat.pair (encKey k) (encV w)) (encKVn r) + 1
termination_by structural l => l

/-- List component of `encV`. -/
def encLn : List Value → Nat
  | [] => 0
  | w :: r => Nat.pair (encV w) (encLn r) + 1
termination_by structural l => l

end

lemma char_toNat_inj {a b : Char} (h : a.toNat = b.toNat) : a = b := by
  unfold Char.toNat at h
  rcases a with ⟨⟨⟨av, hav⟩⟩, ha⟩
  rcases b with ⟨⟨⟨bv, hbv⟩⟩, hb⟩
  simp [UInt32.toNat, BitVec.toNat] at h
  simp [h]

lemma encInt_inj : Function.Injective encInt := by
  intro a b h
  cases a with
  | ofNat m =>
    cases b with
    | ofNat n =>
      rw [encInt, encInt] at h
      have h2 : m = n := by omega
      rw [h2]
    | negSucc n =>
      rw [encInt, encInt] at h
      exact absurd h (by omega)
  | negSucc m =>
    cases b with
    | ofNat n =>
      rw [encInt, encInt] at h
      exact absurd h (by omega)
    | negSucc n =>
      rw [encInt, encInt] at h
      have h2 : m = n := by omega
      rw [h2]

lemma encKey_inj : Function.Injective encKey := by
  intro a
  induction a with
  | nil =>
    intro b h
    cases b with
    | nil => rfl
    | cons c2 r2 =>
      rw [encKey, encKey] at h
      exact absurd h (by omega)
  | cons c r ih =>
    intro b h
    cases b with
    | nil =>
      rw [encKey, encKey] at h
      exact absurd h (by omega)
    | cons c2 r2 =>
      rw [encKey, encKey] at h
      have h2 : Nat.pair c.toNat (encKey r) = Nat.pair c2.toNat (encKey r2) := by omega
      obtain ⟨h3, h4⟩ := Nat.pair_eq_pair.1 h2
      rw [char_toNat_inj h3, ih h4]

lemma encNatList_inj : Function.Injective encNatList := by
  intro a
  induction a with
  | nil =>
    intro b h
    cases b with
    | nil => rfl
    | cons n2 r2 =>
      rw [encNatList, encNatList] at h
      exact absurd h (by omega)
  | cons n r ih =>
    intro b h
    cases b with
    | nil =>
      rw [encNatList, encNatList] at h
      exact absurd h (by omega)
    | cons n2 r2 =>
      rw [encNatList, encNatList] at h
      have h2 : Nat.pair n (encNatList r) = Nat.pair n2 (encNatList r2) := by omega
      obtain ⟨h3, h4⟩ := Nat.pair_eq_pair.1 h2
      rw [h3, ih h4]

lemma encKeyList_inj : Function.Injective encKeyList := by
  intro a
  induction a with
  | nil =>
    intro b h
    cases b with
    | nil => rfl
    | cons k2 r2 =>
      rw [encKeyList, encKeyList] at h
      exact absurd h (by omega)
  | cons k r ih =>
    intro b h
    cases b with
    | nil =>
      rw [encKeyList, encKeyList] at h
      exact absurd h (by omega)
    | cons k2 r2 =>
      rw [encKeyList, encKeyList] at h
      have h2 : Nat.pair (encKey k) (encKeyList r) =
          Nat.pair (encKey k2) (encKeyList r2) := by omega
      obtain ⟨h3, h4⟩ := Nat.pair_eq_pair.1 h2
      rw [encKey_inj h3, ih h4]

lemma encCID_inj : Function.Injective encCID := by
  intro a b h
  obtain ⟨v1, b1, c1, f1, d1⟩ := a
  obtain ⟨v2, b2, c2, f2, d2⟩ := b
  simp only [encCID, Nat.pair_eq_pair] at h
  obtain ⟨e1, e2, e3, e4, e5⟩ := h
  rw [e1, e2, e3, e4, encNatList_inj e5]

lemma encV_inj_aux : ∀ n : Nat,
    (∀ v : Value, sizeOf v ≤ n → ∀ w : Value, encV v = encV w → v = w) ∧
    (∀ l : List (Key × Value), sizeOf l ≤ n → ∀ l2 : List (Key × Value),
      encKVn l = encKVn l2 → l = l2) ∧
    (∀ l : List Value, sizeOf l ≤ n → ∀ l2 : List Value, encLn l = encLn l2 → l = l2) := by
  intro n
  induction n with
  | zero =>
    refine ⟨?_, ?_, ?_⟩
    · intro v hsz
      exact absurd hsz (by cases v <;> simp)
    · intro l hsz
      exact absurd hsz (by cases l <;> simp)
    · intro l hsz
      exact absurd hsz (by cases l <;> simp)
  | succ n ih =>
    refine ⟨?_, ?_, ?_⟩
    · intro v hsz w h
      cases v with
      | int m =>
        cases w with
        | int m2 =>
          rw [encV, encV] at h
          exact congrArg Value.int (encInt_inj (by omega))
        | str s2 => rw [encV, encV] at h; exact absurd h (by omega)
        | link c2 => rw [encV, encV] at h; exact absurd h (by omega)
        | map k2 => rw [encV, encV] at h; exact absurd h (by omega)
        | list l2 => rw [encV, encV] at h; exact absurd h (by omega)
      | str s =>
        cases w with
        | int m2 => rw [encV, encV] at h; exact absurd h (by omega)
        | str s2 =>
          rw [encV, encV] at h
          exact congrArg Value.str (encKey_inj (by omega))
        | link c2 => rw [encV, encV] at h; exact absurd h (by omega)
        | map k2 => rw [encV, encV] at h; exact absurd h (by omega)
        | list l2 => rw [encV, encV] at h; exact absurd h (by omega)
      | link c =>
        cases w with
        | int m2 => rw [encV, encV] at h; exact absurd h (by omega)
        | str s2 => rw [encV, encV] at h; exact absurd h (by omega)
        | link c2 =>
          rw [encV, encV] at h
          exact congrArg Value.link (encCID_inj (by omega))
        | map k2 => rw [encV, encV] at h; exact absurd h (by omega)
        | list l2 => rw [encV, encV] at h; exact absurd h (by omega)
      | map kvs =>
        cases w with
        | int m2 => rw [encV, encV] at h; exact absurd h (by omega)
        | str s2 => rw [encV, encV] at h; exact absurd h (by omega)
        | link c2 => rw [encV, encV] at h; exact absurd h (by omega)
        | map kvs2 =>
          rw [encV, encV] at h
          have hs : sizeOf kvs ≤ n := by
            have h1 : sizeOf (Value.map kvs) = 1 + sizeOf kvs := by simp
            omega
          exact congrArg Value.map (ih.2.1 kvs hs kvs2 (by omega))
        | list l2 => rw [encV, encV] at h; exact absurd h (by omega)
      | list l =>
        cases w with
        | int m2 => rw [encV, encV] at h; exact absurd h (by omega)
        | str s2 => rw [encV, encV] at h; exact absurd h (by omega)
        | link c2 => rw [encV, encV] at h; exact absurd h (by omega)
        | map k2 => rw [encV, encV] at h; exact absurd h (by omega)
        | list l2 =>
          rw [encV, encV] at h
          have hs : sizeOf l ≤ n := by
            have h1 : sizeOf (Value.list l) = 1 + sizeOf l := by simp
            omega
          exact congrArg Value.list (ih.2.2 l hs l2 (by omega))
    · intro l hsz l2 h
      match l, l2 with
      | [], [] => rfl
      | [], (k2, w2) :: r2 =>
        rw [encKVn, encKVn] at h
        exact absurd h (by omega)
      | (k, w) :: r, [] =>
        rw [encKVn, encKVn] at h
        exact absurd h (by omega)
      | (k, w) :: r, (k2, w2) :: r2 =>
        rw [encKVn, encKVn] at h
        have h2 : Nat.pair (Nat.pair (encKey k) (encV w)) (encKVn r) =
            Nat.pair (Nat.pair (encKey k2) (encV w2)) (encKVn r2) := by omega
        obtain ⟨h3, h4⟩ := Nat.pair_eq_pair.1 h2
        obtain ⟨h5, h6⟩ := Nat.pair_eq_pair.1 h3
        have hc := List.cons.sizeOf_spec (k, w) r
        have hp := Prod.mk.sizeOf_spec k w
        rw [encKey_inj h5, ih.1 w (by omega) w2 h6, ih.2.1 r (by omega) r2 h4]
    · intro l hsz l2 h
      match l, l2 with
      | [], [] => rfl
      | [], w2 :: r2 =>
        rw [encLn, encLn] at h
        exact absurd h (by omega)
      | w :: r, [] =>
        rw [encLn, encLn] at h
        exact absurd h (by omega)
      | w :: r, w2 :: r2 =>
        rw [encLn, encLn] at h
        have h2 : Nat.pair (encV w) (encLn r) = Nat.pair (encV w2) (encLn r2) := by omega
        obtain ⟨h3, h4⟩ := Nat.pair_eq_pair.1 h2
        have hc := List.cons.sizeOf_spec w r
        rw [ih.1 w (by omega) w2 h3, ih.2.2 r (by omega) r2 h4]

lemma encV_inj : Function.Injective encV :=
  fun v w h => (encV_inj_aux (sizeOf v)).1 v le_rfl w h

/-- The witness codec: one "byte" carrying the injective value code. -/
def encW (v : Value) : Bytes := [encV v]

lemma encW_inj : Function.Injective encW := by
  intro v w h
  injection h with h1 _
  exact encV_inj h1

/-- A total left inverse of the witness encoder: the lossless decoder
instance used by the round-trip witness. -/
noncomputable def decW (b : Bytes) : Option Value :=
  @dite _ (∃ v, encW v = b) (Classical.propDecidable _)
    (fun h => some h.choose) (fun _ => none)

lemma decW_encW : ∀ v, decW (encW v) = some v := by
  intro v
  rw [decW]
  have hex : ∃ w, encW w = encW v := ⟨v, rfl⟩
  rw [dif_pos hex]
  exact congrArg some (encW_inj hex.choose_spec)

/-- The witness group hash: injective and always negative. -/
def pHashW (g : List Key) : Int := -(1 + (encKeyList g : Int))

lemma pHashW_neg (g : List Key) : pHashW g < 0 := by
  rw [pHashW]
  have h1 : (0 : Int) ≤ (encKeyList g : Int) := Int.ofNat_nonneg _
  omega

lemma pHashW_inj : ∀ g1 g2, pHashW g1 = pHashW g2 → g1 = g2 := by
  intro g1 g2 h
  rw [pHashW, pHashW] at h
  have h2 : (encKeyList g1 : Int) = (encKeyList g2 : Int) := by omega
  exact encKeyList_inj (by exact_mod_cast h2)

lemma wellStored_nil (hashI : Bytes → Bytes) : WellStored hashI [] :=
  fun p hp => absurd hp (List.not_mem_nil p)

/-- C1 witness: a concrete lossless codec, identity block hash,
injective always-negative group hash, the ASCII instantiation of the
`isnumeric` oracle, limit 2 and the one-entry map `{"a": 1}` satisfy
every hypothesis, and the round trip holds there. -/
theorem shard_recover_roundtrip_witness :
    (∀ c, isDigitCh c = true → isDigitCh c = true) ∧
    (∀ w, decW (encW w) = some w) ∧
    Function.Injective (fun b : Bytes => b) ∧
    (∀ g1 g2 : List Key, pHashW g1 = pHashW g2 → g1 = g2) ∧
    (∀ g, pHashW g < 0 ∨ 10 ≤ pHashW g) ∧
    (2 : Nat) ≤ 2 ∧
    GoodVal isDigitCh (.map [(['a'], .int 1)]) = true ∧
    WellStored (fun b => b) [] ∧
    (∃ f0 v' st', (∀ f, f0 ≤ f →
        makeTree encW (fun b => b) pHashW 2 f [] (.map [(['a'], .int 1)]) =
          .ok (v', st')) ∧
      StExt [] st' ∧ WellStored (fun b => b) st' ∧ SmallNode 2 v' ∧
      NewNodes encW 2 [] st' ∧
      ∃ g0, ∀ g, g0 ≤ g →
        recoverTree decW isDigitCh g st' v' = .ok (.map [(['a'], .int 1)])) :=
  ⟨fun c h => h, decW_encW, fun _ _ h => h, pHashW_inj, fun g => Or.inl (pHashW_neg g),
   le_rfl, by decide, wellStored_nil (fun b => b),
   shard_recover_roundtrip encW decW (fun b => b) pHashW 2 isDigitCh
     (fun c h => h) decW_encW
     (fun _ _ h => h) pHashW_inj (fun g => Or.inl (pHashW_neg g)) (by omega)
     (.map [(['a'], .int 1)]) (by decide) [] (wellStored_nil (fun b => b))⟩
